import Mathlib

/-!
Verification of the Lights-Out puzzle core of the `game` repository
(`src/App.tsx`): the board model (`togglePositions`, `applyToggle`,
`makeScrambledBoard`), the difficulty catalog (`DIFFICULTIES`,
`getDifficulty`) and the GF(2) Gaussian-elimination solver (`solveBoard`).

JavaScript arrays of booleans are embedded as `List Bool`; an assignment
`a[i] = v` past the end of the array extends it (holes read back as a
falsy value), which `jsFlip` reproduces.  The solver matrix is a
`List (List Nat)` with entries 0/1; `^` on JavaScript numbers is `Nat.xor`
on those entries.  The solver's `for` loop with its internal `r -= 1` is a
while loop in which `lead` strictly increases at every iteration; it is
embedded structurally with an explicit iteration budget (`elimGo`), and
`elimGo_fuel_irrelevant` below proves the budget is never exhausted, i.e.
the source loop terminates.
-/

namespace Game

structure Position where
  row : Int
  col : Int
deriving DecidableEq, Repr

structure Difficulty where
  id : String
  label : String
  size : Nat
  steps : Nat
deriving DecidableEq, Repr

def DIFFICULTIES : List Difficulty :=
  [ { id := "easy", label := "Easy 4x4", size := 4, steps := 8 },
    { id := "normal", label := "Normal 5x5", size := 5, steps := 14 },
    { id := "hard", label := "Hard 6x6", size := 6, steps := 22 } ]

def toIndex (size : Nat) (row col : Int) : Int := row * size + col

def inBounds (size : Nat) (row col : Int) : Bool :=
  row ≥ 0 && row < size && col ≥ 0 && col < size

def togglePositions (size : Nat) (row col : Int) : List Position :=
  [ { row := row, col := col },
    { row := row - 1, col := col },
    { row := row + 1, col := col },
    { row := row, col := col - 1 },
    { row := row, col := col + 1 } ].filter
    (fun pos => inBounds size pos.row pos.col)

/-- JavaScript `next[idx] = !next[idx]` on a boolean array: in range it
updates in place, past the end it extends the array (holes are falsy). -/
def jsFlip (a : List Bool) (i : Nat) : List Bool :=
  let v := !(a.getD i false)
  if i < a.length then a.set i v
  else a ++ List.replicate (i - a.length) false ++ [v]

def applyToggle (board : List Bool) (size : Nat) (row col : Int) : List Bool :=
  (togglePositions size row col).foldl
    (fun next pos => jsFlip next (toIndex size pos.row pos.col).toNat) board

/-- The scrambler from the source, with the stream of random
`(row, col)` draws made explicit: the source draws `steps` independent
pairs from `[0, size) × [0, size)` and toggles each in turn, starting
from the all-`false` board. -/
def makeScrambledBoard (size : Nat) (draws : List (Nat × Nat)) : List Bool :=
  draws.foldl (fun board p => applyToggle board size p.1 p.2)
    (List.replicate (size * size) false)

def getDifficulty (id : String) : Difficulty :=
  ((DIFFICULTIES.find? (fun difficulty => difficulty.id == id)).getD
    (DIFFICULTIES.get ⟨1, by decide⟩))

/-! ### The GF(2) solver -/

/-- Matrix entry access `matrix[i][k]`, with JavaScript's out-of-range reads collapsed to the
default 0 (never exercised on the shapes the solver builds). -/
def mget (m : List (List Nat)) (i k : Nat) : Nat := (m.getD i []).getD k 0

def mrow (m : List (List Nat)) (i : Nat) : List Nat := m.getD i []

/-- Row `rowIndex` of the augmented matrix: 1 in column `j` iff switch `j`
is in the toggle group of cell `rowIndex`; augmented entry = cell state. -/
def buildRow (board : List Bool) (size : Nat) (rowIndex : Nat) : List Nat :=
  let total := size * size
  let row : Int := ((rowIndex / size : Nat) : Int)
  let col : Int := ((rowIndex % size : Nat) : Int)
  let withOnes := (togglePositions size row col).foldl
    (fun rowData pos => rowData.set (toIndex size pos.row pos.col).toNat 1)
    (List.replicate (total + 1) 0)
  withOnes.set total (if board.getD rowIndex false then 1 else 0)

def buildMatrix (board : List Bool) (size : Nat) : List (List Nat) :=
  (List.range (size * size)).map (buildRow board size)

/-- The `while (i < total && matrix[i][lead] === 0) i += 1` scan, written
structurally on the remaining distance `total - i`. -/
def pivotGo (m : List (List Nat)) (total lead : Nat) : Nat → Nat → Nat
  | i, 0 => i
  | i, fuel + 1 =>
    if i < total ∧ mget m i lead = 0 then pivotGo m total lead (i + 1) fuel else i

def findPivotRow (m : List (List Nat)) (total lead r : Nat) : Nat :=
  pivotGo m total lead r (total - r + 1)

/-- The row swap `[matrix[i], matrix[r]] = [matrix[r], matrix[i]]`. -/
def lswap (m : List (List Nat)) (i r : Nat) : List (List Nat) :=
  (m.set i (m.getD r [])).set r (m.getD i [])

/-- The inner loop `for (k = lead; k <= total; k++) target[k] ^= pivot[k]`. -/
def xorRowFrom (total : Nat) (target pivot : List Nat) (lead : Nat) : List Nat :=
  (List.range (total + 1)).map
    (fun k => if lead ≤ k then target.getD k 0 ^^^ pivot.getD k 0 else target.getD k 0)

/-- The inner `for (j = 0; j < total; j++)` elimination pass: XOR the
pivot row `r` into every other row with a 1 in column `lead`. -/
def eliminateAll (total : Nat) (m : List (List Nat)) (r lead : Nat) : List (List Nat) :=
  (List.range total).map
    (fun j =>
      if j ≠ r ∧ mget m j lead = 1 then xorRowFrom total (mrow m j) (mrow m r) lead
      else mrow m j)

/-- One structural rendering of the source's elimination loop.  `fuel`
bounds the number of iterations; since `lead` increases by 1 at every
iteration and the loop stops once `lead = total`, a budget of `total`
always suffices (`elimGo_fuel_irrelevant`). -/
def elimGo (total : Nat) : Nat → List (List Nat) → Nat → Nat → List (List Nat)
  | 0, m, _, _ => m
  | fuel + 1, m, r, lead =>
    if r < total ∧ lead < total then
      let i := findPivotRow m total lead r
      if i = total then elimGo total fuel m r (lead + 1)
      else elimGo total fuel (eliminateAll total (lswap m i r) r lead) (r + 1) (lead + 1)
    else m

def elimLoop (total : Nat) (m : List (List Nat)) : List (List Nat) :=
  elimGo total total m 0 0

/-- The unsolvability scan: `matrix[r].slice(0, total).every(v => v === 0)`
and `matrix[r][total] === 1` for some `r < total`. -/
def hasContradiction (total : Nat) (m : List (List Nat)) : Bool :=
  (List.range total).any
    (fun r => ((mrow m r).take total).all (fun v => v == 0) && (mrow m r).getD total 0 == 1)

/-- The leading-entry search `matrix[r].findIndex((value, idx) => idx < total && value === 1)`. -/
def findPivotIndex (row : List Nat) (total : Nat) : Option Nat :=
  (row.take total).findIdx? (fun v => v == 1)

def buildSolution (total : Nat) (m : List (List Nat)) : List Bool :=
  (List.range total).foldl
    (fun solution r =>
      match findPivotIndex (mrow m r) total with
      | some pivotIndex => solution.set pivotIndex ((mrow m r).getD total 0 == 1)
      | none => solution)
    (List.replicate total false)

def solveBoard (board : List Bool) (size : Nat) : Option (List Bool) :=
  let total := size * size
  let matrix := elimLoop total (buildMatrix board size)
  if hasContradiction total matrix then none
  else some (buildSolution total matrix)

/-! ### Derived notions used in the statements -/

/-- The cell indices flipped by pressing `(row, col)`: the image of
`togglePositions` under the board indexing scheme. -/
def toggleIdxs (size : Nat) (row col : Int) : List Nat :=
  (togglePositions size row col).map (fun pos => (toIndex size pos.row pos.col).toNat)

/-- Apply a toggle at each listed `(row, col)` pair in order. -/
def applyPresses (size : Nat) (ps : List (Nat × Nat)) (board : List Bool) : List Bool :=
  ps.foldl (fun b p => applyToggle b size p.1 p.2) board

/-- Value over GF(2) of the coefficient part of an augmented row against
an assignment of the `total` switch variables. -/
def rowVal (total : Nat) (row : List Nat) (x : List Bool) : ZMod 2 :=
  ∑ j ∈ Finset.range total, (row.getD j 0 : ZMod 2) * (if x.getD j false then 1 else 0)

/-- The equation encoded by one augmented row holds for the assignment. -/
def rowSat (total : Nat) (row : List Nat) (x : List Bool) : Prop :=
  rowVal total row x = ((row.getD total 0 : Nat) : ZMod 2)

/-- The assignment solves every equation of the augmented system. -/
def matSat (total : Nat) (m : List (List Nat)) (x : List Bool) : Prop :=
  ∀ r, r < total → rowSat total (mrow m r) x

/-- Loop invariant of the elimination: shape and boundedness of the
matrix, zeros below `lead` in the unprocessed rows, and a fully reduced
pivot (unique 1 in its column, zeros before it in its row) for every
processed row. -/
structure ElimInv (total : Nat) (m : List (List Nat)) (r lead : Nat) : Prop where
  len : m.length = total
  rlen : ∀ i, i < total → (mrow m i).length = total + 1
  bnd : ∀ i k, mget m i k ≤ 1
  hrl : r ≤ lead
  hlt : lead ≤ total
  low : ∀ i, r ≤ i → i < total → ∀ k, k < lead → mget m i k = 0
  piv : ∀ i, i < r → ∃ c, c < lead ∧ (∀ k, k < c → mget m i k = 0) ∧ mget m i c = 1 ∧
    ∀ j, j < total → j ≠ i → mget m j c = 0

/-- What elimination guarantees on exit: every row is either zero on all
coefficient columns or carries a fully reduced pivot. -/
structure ElimOut (total : Nat) (m : List (List Nat)) : Prop where
  len : m.length = total
  rlen : ∀ i, i < total → (mrow m i).length = total + 1
  bnd : ∀ i k, mget m i k ≤ 1
  rows : ∀ i, i < total →
    (∀ k, k < total → mget m i k = 0) ∨
    (∃ c, c < total ∧ (∀ k, k < c → mget m i k = 0) ∧ mget m i c = 1 ∧
      ∀ j, j < total → j ≠ i → mget m j c = 0)

/-! ### List access helpers -/

theorem getD_of_ge {α : Type} (l : List α) (d : α) {n : Nat} (h : l.length ≤ n) :
    l.getD n d = d := by
  rw [List.getD_eq_getElem?_getD, List.getElem?_eq_none h]
  rfl

theorem getD_set_self {α : Type} (l : List α) (i : Nat) (v d : α) (h : i < l.length) :
    (l.set i v).getD i d = v := by
  rw [List.getD_eq_getElem?_getD, List.getElem?_set_self h]
  rfl

theorem getD_set_ne {α : Type} (l : List α) (i j : Nat) (v d : α) (h : i ≠ j) :
    (l.set i v).getD j d = l.getD j d := by
  rw [List.getD_eq_getElem?_getD, List.getElem?_set_ne h, ← List.getD_eq_getElem?_getD]

theorem getD_replicate_self {α : Type} (n i : Nat) (a : α) :
    (List.replicate n a).getD i a = a := by
  rcases Nat.lt_or_ge i n with h | h
  · rw [List.getD_eq_getElem _ _ (by simpa using h), List.getElem_replicate]
  · exact getD_of_ge _ _ (by simpa using h)

theorem getD_range {n i : Nat} (h : i < n) : (List.range n).getD i 0 = i := by
  rw [List.getD_eq_getElem _ _ (by simpa using h), List.getElem_range]

theorem getD_map_range {α : Type} (f : Nat → α) (d : α) {n i : Nat} (h : i < n) :
    ((List.range n).map f).getD i d = f i := by
  rw [List.getD_eq_getElem _ _ (by simpa using h), List.getElem_map, List.getElem_range]

/-! ### Bits and GF(2) -/

theorem xor_le_one {a b : Nat} (ha : a ≤ 1) (hb : b ≤ 1) : a ^^^ b ≤ 1 := by
  interval_cases a <;> interval_cases b <;> decide

theorem cast_xor_bit {a b : Nat} (ha : a ≤ 1) (hb : b ≤ 1) :
    ((a ^^^ b : Nat) : ZMod 2) = (a : ZMod 2) + (b : ZMod 2) := by
  interval_cases a <;> interval_cases b <;> decide

theorem cast_eq_one_of_bit {a : Nat} (ha : a ≤ 1) (h : a = 1) : (a : ZMod 2) = 1 := by
  subst h; decide

theorem natCast_zmod_two (c : Nat) :
    (c : ZMod 2) = if Odd c then 1 else 0 := by
  rw [← ZMod.natCast_mod c 2]
  rcases Nat.mod_two_eq_zero_or_one c with h | h <;>
    simp [h, Nat.odd_iff]

/-! ### Positions and indexing -/

theorem inBounds_iff {size : Nat} {r c : Int} :
    inBounds size r c = true ↔ 0 ≤ r ∧ r < (size : Int) ∧ 0 ≤ c ∧ c < (size : Int) := by
  simp [inBounds, and_assoc]

theorem mem_togglePositions {size : Nat} {row col : Int} {p : Position} :
    p ∈ togglePositions size row col ↔
      (p = ⟨row, col⟩ ∨ p = ⟨row - 1, col⟩ ∨ p = ⟨row + 1, col⟩ ∨
        p = ⟨row, col - 1⟩ ∨ p = ⟨row, col + 1⟩) ∧
      inBounds size p.row p.col = true := by
  simp [togglePositions, List.mem_filter]

theorem togglePositions_inBounds {size : Nat} {row col : Int} {p : Position}
    (h : p ∈ togglePositions size row col) : inBounds size p.row p.col = true :=
  (mem_togglePositions.1 h).2

theorem togglePositions_symm {size : Nat} (pr pc qr qc : Int)
    (hp : inBounds size pr pc = true) (hq : inBounds size qr qc = true) :
    (⟨pr, pc⟩ : Position) ∈ togglePositions size qr qc ↔
      (⟨qr, qc⟩ : Position) ∈ togglePositions size pr pc := by
  rw [mem_togglePositions, mem_togglePositions]
  simp only [Position.mk.injEq]
  constructor
  · rintro ⟨h, _⟩
    exact ⟨by omega, by simpa using hq⟩
  · rintro ⟨h, _⟩
    exact ⟨by omega, by simpa using hp⟩

theorem togglePositions_nodup (size : Nat) (row col : Int) :
    (togglePositions size row col).Nodup := by
  apply List.Nodup.filter
  simp [List.nodup_cons, List.mem_cons, Position.mk.injEq, List.mem_singleton]
  omega

/-- Decompose an in-bounds position into natural-number coordinates and
compute its board index. -/
theorem inBounds_nat {size : Nat} {pos : Position}
    (hb : inBounds size pos.row pos.col = true) :
    ∃ r c : Nat, r < size ∧ c < size ∧ pos.row = (r : Int) ∧ pos.col = (c : Int) ∧
      (toIndex size pos.row pos.col).toNat = r * size + c := by
  rw [inBounds_iff] at hb
  refine ⟨pos.row.toNat, pos.col.toNat, by omega, by omega, by omega, by omega, ?_⟩
  rw [toIndex]
  have h1 : pos.row * (size : Int) + pos.col =
      ((pos.row.toNat * size + pos.col.toNat : Nat) : Int) := by
    push_cast
    rw [Int.toNat_of_nonneg hb.1, Int.toNat_of_nonneg hb.2.2.1]
  rw [h1, Int.toNat_natCast]

theorem encode_div {size r c : Nat} (hc : c < size) : (r * size + c) / size = r := by
  rw [Nat.mul_comm, Nat.mul_add_div (by omega), Nat.div_eq_of_lt hc, Nat.add_zero]

theorem encode_mod {size r c : Nat} (hc : c < size) : (r * size + c) % size = c := by
  rw [Nat.mul_comm, Nat.mul_add_mod, Nat.mod_eq_of_lt hc]

theorem encode_lt {size r c : Nat} (hr : r < size) (hc : c < size) :
    r * size + c < size * size := by
  calc r * size + c < r * size + size := by omega
    _ = (r + 1) * size := by ring
    _ ≤ size * size := Nat.mul_le_mul_right _ (by omega)

theorem toggleIdxs_lt {size : Nat} {row col : Int} :
    ∀ i ∈ toggleIdxs size row col, i < size * size := by
  intro i hi
  obtain ⟨pos, hpos, hidx⟩ := List.mem_map.1 hi
  obtain ⟨r, c, hr, hc, _, _, hval⟩ := inBounds_nat (togglePositions_inBounds hpos)
  rw [← hidx, hval]
  exact encode_lt hr hc

theorem toggleIdxs_nodup (size : Nat) (row col : Int) :
    (toggleIdxs size row col).Nodup := by
  apply List.Nodup.map_on _ (togglePositions_nodup size row col)
  intro x hx y hy hxy
  obtain ⟨xr, xc, hxr, hxc, hx1, hx2, hx3⟩ := inBounds_nat (togglePositions_inBounds hx)
  obtain ⟨yr, yc, hyr, hyc, hy1, hy2, hy3⟩ := inBounds_nat (togglePositions_inBounds hy)
  rw [hx3, hy3] at hxy
  have hr : xr = yr := by
    have := congrArg (· / size) hxy
    simpa [encode_div hxc, encode_div hyc] using this
  have hc : xc = yc := by
    have := congrArg (· % size) hxy
    simpa [encode_mod hxc, encode_mod hyc] using this
  cases x
  cases y
  simp only [Position.mk.injEq]
  subst hr hc
  simp_all

/-- The unique in-bounds position with board index `i` is
`(i / size, i % size)`. -/
theorem mem_toggleIdxs_iff {size : Nat} {row col : Int} {i : Nat} (hi : i < size * size) :
    i ∈ toggleIdxs size row col ↔
      (⟨((i / size : Nat) : Int), ((i % size : Nat) : Int)⟩ : Position) ∈
        togglePositions size row col := by
  have hsize : 0 < size := by
    rcases Nat.eq_zero_or_pos size with h | h
    · subst h; simp at hi
    · exact h
  constructor
  · intro h
    obtain ⟨pos, hpos, hidx⟩ := List.mem_map.1 h
    obtain ⟨r, c, hr, hc, h1, h2, h3⟩ := inBounds_nat (togglePositions_inBounds hpos)
    have : i = r * size + c := by rw [← hidx, h3]
    subst this
    rw [encode_div hc, encode_mod hc]
    have : pos = ⟨(r : Int), (c : Int)⟩ := by
      cases pos
      simp_all
    rwa [← this]
  · intro h
    apply List.mem_map.2
    refine ⟨_, h, ?_⟩
    have hc : i % size < size := Nat.mod_lt _ hsize
    have hval : ((i / size : Nat) : Int) * (size : Int) + ((i % size : Nat) : Int) =
        ((i / size * size + i % size : Nat) : Int) := by push_cast; ring
    rw [toIndex]
    simp only [hval, Int.toNat_natCast]
    rw [Nat.mul_comm]
    exact Nat.div_add_mod i size

/-! ### Pointwise behaviour of toggling -/

theorem jsFlip_length {a : List Bool} {i : Nat} (h : i < a.length) :
    (jsFlip a i).length = a.length := by
  simp [jsFlip, h]

theorem jsFlip_getD_self {a : List Bool} {i : Nat} (h : i < a.length) :
    (jsFlip a i).getD i false = !(a.getD i false) := by
  simp only [jsFlip, if_pos h]
  exact getD_set_self _ _ _ _ h

theorem jsFlip_getD_ne {a : List Bool} {i j : Nat} (h : i < a.length) (hne : i ≠ j) :
    (jsFlip a i).getD j false = a.getD j false := by
  simp only [jsFlip, if_pos h]
  exact getD_set_ne _ _ _ _ _ hne

theorem foldl_jsFlip_length :
    ∀ (l : List Nat) (a : List Bool), (∀ x ∈ l, x < a.length) →
      (l.foldl jsFlip a).length = a.length := by
  intro l
  induction l with
  | nil => intro a _; rfl
  | cons x l ih =>
    intro a hmem
    have hx : x < a.length := hmem x (by simp)
    rw [List.foldl_cons, ih _ (fun y hy => by rw [jsFlip_length hx]; exact hmem y (by simp [hy])),
      jsFlip_length hx]

theorem foldl_jsFlip_getD :
    ∀ (l : List Nat) (a : List Bool), l.Nodup → (∀ x ∈ l, x < a.length) → ∀ j,
      (l.foldl jsFlip a).getD j false = ((a.getD j false) ^^ decide (j ∈ l)) := by
  intro l
  induction l with
  | nil => intro a _ _ j; simp
  | cons x l ih =>
    intro a hnd hmem j
    have hx : x < a.length := hmem x (by simp)
    have hmem' : ∀ y ∈ l, y < (jsFlip a x).length := by
      intro y hy; rw [jsFlip_length hx]; exact hmem y (by simp [hy])
    rw [List.foldl_cons, ih _ (List.Nodup.of_cons hnd) hmem' j]
    rcases eq_or_ne j x with rfl | hne
    · have hnotin : j ∉ l := (List.nodup_cons.1 hnd).1
      rw [jsFlip_getD_self hx]
      simp [hnotin, Bool.xor_true, Bool.xor_false]
    · rw [jsFlip_getD_ne hx (Ne.symm hne)]
      simp [List.mem_cons, hne]

theorem applyToggle_eq_foldl (board : List Bool) (size : Nat) (row col : Int) :
    applyToggle board size row col = (toggleIdxs size row col).foldl jsFlip board := by
  rw [applyToggle, toggleIdxs, List.foldl_map]

theorem applyToggle_length {board : List Bool} {size : Nat} (row col : Int)
    (hb : board.length = size * size) :
    (applyToggle board size row col).length = board.length := by
  rw [applyToggle_eq_foldl]
  exact foldl_jsFlip_length _ _ (fun x hx => by rw [hb]; exact toggleIdxs_lt x hx)

theorem applyToggle_getD {board : List Bool} {size : Nat} (row col : Int)
    (hb : board.length = size * size) (j : Nat) :
    (applyToggle board size row col).getD j false =
      ((board.getD j false) ^^ decide (j ∈ toggleIdxs size row col)) := by
  rw [applyToggle_eq_foldl]
  exact foldl_jsFlip_getD _ _ (toggleIdxs_nodup size row col)
    (fun x hx => by rw [hb]; exact toggleIdxs_lt x hx) j

/-! ### Claims about the board model -/

/-- C5: toggling is an involution — for every board `b` of length `size²`
and every in-bounds `row` and `col`,
`toggle(toggle(b, size, row, col), size, row, col) = b`. -/
theorem toggle_involution (board : List Bool) (size : Nat) (row col : Nat)
    (hb : board.length = size * size) (hrow : row < size) (hcol : col < size) :
    applyToggle (applyToggle board size row col) size row col = board := by
  have hb2 : (applyToggle board size (row : Int) col).length = size * size := by
    rw [applyToggle_length _ _ hb, hb]
  apply List.ext_getElem
  · rw [applyToggle_length _ _ hb2, hb2, hb]
  · intro n h1 h2
    rw [← List.getD_eq_getElem _ false h1, ← List.getD_eq_getElem _ false h2,
      applyToggle_getD _ _ hb2, applyToggle_getD _ _ hb,
      Bool.xor_assoc, Bool.xor_self, Bool.xor_false]

theorem toggle_involution_witness :
    applyToggle (applyToggle [false, true, false, true] 2 0 1) 2 0 1 =
      [false, true, false, true] :=
  toggle_involution [false, true, false, true] 2 0 1 (by decide) (by decide) (by decide)

/-- C6: toggles commute — for every board of length `size²` and any two
in-bounds positions, the two application orders give the same board. -/
theorem toggle_commute (board : List Bool) (size : Nat) (r1 c1 r2 c2 : Nat)
    (hb : board.length = size * size)
    (h1 : r1 < size) (h2 : c1 < size) (h3 : r2 < size) (h4 : c2 < size) :
    applyToggle (applyToggle board size r1 c1) size r2 c2 =
      applyToggle (applyToggle board size r2 c2) size r1 c1 := by
  have hbA : (applyToggle board size (r1 : Int) c1).length = size * size := by
    rw [applyToggle_length _ _ hb, hb]
  have hbB : (applyToggle board size (r2 : Int) c2).length = size * size := by
    rw [applyToggle_length _ _ hb, hb]
  apply List.ext_getElem
  · rw [applyToggle_length _ _ hbA, applyToggle_length _ _ hbB, hbA, hbB]
  · intro n hn1 hn2
    rw [← List.getD_eq_getElem _ false hn1, ← List.getD_eq_getElem _ false hn2,
      applyToggle_getD _ _ hbA, applyToggle_getD _ _ hbB,
      applyToggle_getD _ _ hb, applyToggle_getD _ _ hb,
      Bool.xor_assoc, Bool.xor_assoc,
      Bool.xor_comm (decide (n ∈ toggleIdxs size r1 c1))]

theorem toggle_commute_witness :
    applyToggle (applyToggle [true, false, false, true] 2 0 0) 2 1 1 =
      applyToggle (applyToggle [true, false, false, true] 2 1 1) 2 0 0 :=
  toggle_commute [true, false, false, true] 2 0 0 1 1 (by decide) (by decide) (by decide)
    (by decide) (by decide)

/-- C7: frame condition of a toggle — the result has the same length as
the input, every index in the toggle group of `(row, col)` is flipped,
and every other index is unchanged.  (The input list itself is of course
untouched: `applyToggle` is a pure function of an immutable list.) -/
theorem toggle_frame (board : List Bool) (size : Nat) (row col : Nat)
    (hb : board.length = size * size) (hrow : row < size) (hcol : col < size) :
    (applyToggle board size row col).length = board.length ∧
    (∀ i ∈ toggleIdxs size row col,
      (applyToggle board size row col).getD i false = !(board.getD i false)) ∧
    (∀ i, i ∉ toggleIdxs size row col →
      (applyToggle board size row col).getD i false = board.getD i false) := by
  refine ⟨applyToggle_length _ _ hb, ?_, ?_⟩
  · intro i hi
    rw [applyToggle_getD _ _ hb]
    simp [hi, Bool.xor_true]
  · intro i hi
    rw [applyToggle_getD _ _ hb]
    simp [hi, Bool.xor_false]

theorem toggle_frame_witness :
    (applyToggle [true, false, false, true] 2 1 0).length = 4 ∧
    (∀ i ∈ toggleIdxs 2 1 0,
      (applyToggle [true, false, false, true] 2 1 0).getD i false =
        !([true, false, false, true].getD i false)) ∧
    (∀ i, i ∉ toggleIdxs 2 1 0 →
      (applyToggle [true, false, false, true] 2 1 0).getD i false =
        [true, false, false, true].getD i false) :=
  toggle_frame [true, false, false, true] 2 1 0 (by decide) (by decide) (by decide)

/-- C3 fails on the code: neither `applyToggle` nor `solveBoard` checks
its dimensions.  `applyToggle` on the empty board with `size = 2` happily
extends the array and returns a board of length 3, and `solveBoard` with
`size = 0` returns the empty solution instead of failing. -/
theorem dimension_check_counterexample :
    applyToggle ([] : List Bool) 2 0 0 = [true, true, true] ∧
    solveBoard [] 0 = some [] := by
  constructor
  · decide
  · rfl

/-- C3 amended: no precondition failure exists.  `solveBoard` with
`size = 0` returns `some []` for every board (treating the system as
empty), and `applyToggle` with a board whose length is not `size²`
silently returns an ordinary board, possibly of a different length than
its input (JavaScript hole-extension semantics). -/
theorem dimension_check_amended :
    (∀ board : List Bool, solveBoard board 0 = some []) ∧
    (applyToggle ([] : List Bool) 2 0 0).length = 3 := by
  constructor
  · intro board
    rfl
  · decide

/-- C8: the elimination loop makes progress and completes — `lead`
increases at every iteration, so any iteration budget of at least
`total - lead` computes the same final matrix: the loop terminates
within `total` iterations from its initial state. -/
theorem elimGo_succ (total fuel : Nat) (m : List (List Nat)) (r lead : Nat) :
    elimGo total (fuel + 1) m r lead =
      if r < total ∧ lead < total then
        if findPivotRow m total lead r = total then elimGo total fuel m r (lead + 1)
        else elimGo total fuel
          (eliminateAll total (lswap m (findPivotRow m total lead r) r) r lead)
          (r + 1) (lead + 1)
      else m := rfl

theorem elimGo_fuel_irrelevant (total : Nat) :
    ∀ (fuel fuel' : Nat) (m : List (List Nat)) (r lead : Nat),
      total ≤ fuel + lead → total ≤ fuel' + lead →
      elimGo total fuel m r lead = elimGo total fuel' m r lead := by
  have succ : ∀ (fuel : Nat) (m : List (List Nat)) (r lead : Nat),
      total ≤ fuel + lead →
      elimGo total (fuel + 1) m r lead = elimGo total fuel m r lead := by
    intro fuel
    induction fuel with
    | zero =>
      intro m r lead h
      have : ¬(r < total ∧ lead < total) := by omega
      simp [elimGo, this]
    | succ fuel ih =>
      intro m r lead h
      by_cases hg : r < total ∧ lead < total
      · by_cases hp : findPivotRow m total lead r = total
        · have l1 : elimGo total (fuel + 1 + 1) m r lead = elimGo total (fuel + 1) m r (lead + 1) := by
            rw [elimGo_succ, if_pos hg, if_pos hp]
          have l2 : elimGo total (fuel + 1) m r lead = elimGo total fuel m r (lead + 1) := by
            rw [elimGo_succ, if_pos hg, if_pos hp]
          rw [l1, l2]
          exact ih _ _ _ (by omega)
        · have l1 : elimGo total (fuel + 1 + 1) m r lead =
              elimGo total (fuel + 1)
                (eliminateAll total (lswap m (findPivotRow m total lead r) r) r lead)
                (r + 1) (lead + 1) := by
            rw [elimGo_succ, if_pos hg, if_neg hp]
          have l2 : elimGo total (fuel + 1) m r lead =
              elimGo total fuel
                (eliminateAll total (lswap m (findPivotRow m total lead r) r) r lead)
                (r + 1) (lead + 1) := by
            rw [elimGo_succ, if_pos hg, if_neg hp]
          rw [l1, l2]
          exact ih _ _ _ (by omega)
      · have l1 : elimGo total (fuel + 1 + 1) m r lead = m := by
          rw [elimGo_succ, if_neg hg]
        have l2 : elimGo total (fuel + 1) m r lead = m := by
          rw [elimGo_succ, if_neg hg]
        rw [l1, l2]
  have steps : ∀ (d fuel : Nat) (m : List (List Nat)) (r lead : Nat),
      total ≤ fuel + lead →
      elimGo total (fuel + d) m r lead = elimGo total fuel m r lead := by
    intro d
    induction d with
    | zero => intro fuel m r lead _; rfl
    | succ d ih =>
      intro fuel m r lead h
      have : fuel + (d + 1) = (fuel + d) + 1 := by omega
      rw [this, succ _ _ _ _ (by omega), ih _ _ _ _ h]
  intro fuel fuel' m r lead h h'
  rcases Nat.le_total fuel fuel' with hle | hle
  · have : fuel' = fuel + (fuel' - fuel) := by omega
    rw [this, steps _ _ _ _ _ h]
  · have : fuel = fuel' + (fuel - fuel') := by omega
    rw [this, steps _ _ _ _ _ h']

theorem elimGo_fuel_irrelevant_witness :
    elimGo 2 2 [[1, 0, 1], [0, 1, 1]] 0 0 = elimGo 2 9 [[1, 0, 1], [0, 1, 1]] 0 0 :=
  elimGo_fuel_irrelevant 2 2 9 [[1, 0, 1], [0, 1, 1]] 0 0 (by decide) (by decide)

/-- C9 helper: the extracted solution always has exactly `total` entries. -/
theorem buildSolution_length (total : Nat) (m : List (List Nat)) :
    (buildSolution total m).length = total := by
  rw [buildSolution]
  have : ∀ (rs : List Nat) (init : List Bool),
      (rs.foldl (fun solution r =>
        match findPivotIndex (mrow m r) total with
        | some pivotIndex => solution.set pivotIndex ((mrow m r).getD total 0 == 1)
        | none => solution) init).length = init.length := by
    intro rs
    induction rs with
    | nil => intro init; rfl
    | cons x rs ih =>
      intro init
      rw [List.foldl_cons, ih]
      rcases h : findPivotIndex (mrow m x) total with _ | p <;> simp [h]
  rw [this, List.length_replicate]

/-- C9: whenever `solveBoard` returns a solution, it is a boolean list of
length exactly `size²`, indexable by the same `row * size + col` scheme
as the board. -/
theorem solve_solution_length (board : List Bool) (size : Nat) (s : List Bool)
    (h : solveBoard board size = some s) : s.length = size * size := by
  rw [solveBoard] at h
  split at h
  · exact absurd h (by simp)
  · rw [← Option.some.inj h]
    exact buildSolution_length _ _

theorem solve_solution_length_witness :
    ([true, true, true, true] : List Bool).length = 2 * 2 :=
  solve_solution_length [true, true, true, true] 2 [true, true, true, true] (by decide)

/-- C10: `getDifficulty` returns the catalog entry whose id matches when
one exists, and otherwise falls back to the second entry of the catalog,
the normal 5×5 difficulty. -/
theorem getDifficulty_spec (id : String) :
    ((∃ d ∈ DIFFICULTIES, d.id = id) →
      getDifficulty id ∈ DIFFICULTIES ∧ (getDifficulty id).id = id) ∧
    ((∀ d ∈ DIFFICULTIES, d.id ≠ id) →
      getDifficulty id = { id := "normal", label := "Normal 5x5", size := 5, steps := 14 }) := by
  constructor
  · rintro ⟨d, hd, hdid⟩
    have hsome : (DIFFICULTIES.find? (fun x => x.id == id)).isSome := by
      rw [List.find?_isSome]
      exact ⟨d, hd, by simp [hdid]⟩
    obtain ⟨e, he⟩ := Option.isSome_iff_exists.1 hsome
    rw [getDifficulty, he, Option.getD_some]
    exact ⟨List.mem_of_find?_eq_some he, by simpa using List.find?_some he⟩
  · intro h
    have hnone : DIFFICULTIES.find? (fun x => x.id == id) = none := by
      rw [List.find?_eq_none]
      intro d hd
      simpa using h d hd
    rw [getDifficulty, hnone, Option.getD_none]
    decide

theorem getDifficulty_spec_witness :
    getDifficulty "zzz" = { id := "normal", label := "Normal 5x5", size := 5, steps := 14 } ∧
    (getDifficulty "easy").id = "easy" :=
  ⟨(getDifficulty_spec "zzz").2 (by decide),
    ((getDifficulty_spec "easy").1 ⟨{ id := "easy", label := "Easy 4x4", size := 4, steps := 8 },
      by decide, rfl⟩).2⟩

/-! ### Pointwise behaviour of press sequences -/

theorem odd_succ_iff (c : Nat) : Odd (c + 1) ↔ ¬Odd c := by
  rw [Nat.odd_iff, Nat.odd_iff]
  omega

theorem decide_odd_succ (c : Nat) : decide (Odd (c + 1)) = !decide (Odd c) := by
  by_cases h : Odd c <;> simp [odd_succ_iff, h]

theorem applyPresses_length (size : Nat) :
    ∀ (ps : List (Nat × Nat)) (board : List Bool), board.length = size * size →
      (applyPresses size ps board).length = board.length := by
  intro ps
  induction ps with
  | nil => intro board _; rfl
  | cons p ps ih =>
    intro board hb
    rw [applyPresses, List.foldl_cons]
    have h1 : (applyToggle board size p.1 p.2).length = size * size := by
      rw [applyToggle_length _ _ hb, hb]
    rw [show List.foldl (fun b q => applyToggle b size q.1 q.2)
        (applyToggle board size p.1 p.2) ps =
        applyPresses size ps (applyToggle board size p.1 p.2) from rfl, ih _ h1, h1, hb]

theorem applyPresses_getD (size : Nat) :
    ∀ (ps : List (Nat × Nat)) (board : List Bool), board.length = size * size → ∀ j,
      (applyPresses size ps board).getD j false =
        ((board.getD j false) ^^
          decide (Odd (ps.countP (fun p => decide (j ∈ toggleIdxs size p.1 p.2))))) := by
  intro ps
  induction ps with
  | nil => intro board _ j; simp [applyPresses]
  | cons p ps ih =>
    intro board hb j
    have h1 : (applyToggle board size p.1 p.2).length = size * size := by
      rw [applyToggle_length _ _ hb, hb]
    have step : applyPresses size (p :: ps) board =
        applyPresses size ps (applyToggle board size p.1 p.2) := rfl
    rw [step, ih _ h1 j, applyToggle_getD _ _ hb, List.countP_cons]
    by_cases hp : j ∈ toggleIdxs size p.1 p.2
    · have hc : (List.countP (fun q => decide (j ∈ toggleIdxs size q.1 q.2)) ps +
          if (decide (j ∈ toggleIdxs size (p.1 : Int) (p.2 : Int))) = true then 1 else 0) =
          List.countP (fun q => decide (j ∈ toggleIdxs size q.1 q.2)) ps + 1 := by
        simp [hp]
      rw [hc, decide_odd_succ]
      cases board.getD j false <;>
        cases hodd : decide (Odd (List.countP
          (fun q => decide (j ∈ toggleIdxs size q.1 q.2)) ps)) <;> simp [hp]
    · simp [hp]

/-! ### The matrix rows encode the toggle groups -/

theorem foldl_set_length {α : Type} (v : α) :
    ∀ (l : List Nat) (init : List α),
      (l.foldl (fun rd idx => rd.set idx v) init).length = init.length := by
  intro l
  induction l with
  | nil => intro init; rfl
  | cons x l ih => intro init; rw [List.foldl_cons, ih, List.length_set]

theorem foldl_set_getD {α : Type} (v d : α) :
    ∀ (l : List Nat) (init : List α) (j : Nat), (∀ x ∈ l, x < init.length) →
      (l.foldl (fun rd idx => rd.set idx v) init).getD j d =
        if j ∈ l then v else init.getD j d := by
  intro l
  induction l with
  | nil => intro init j _; simp
  | cons x l ih =>
    intro init j hmem
    have hx : x < init.length := hmem x (by simp)
    rw [List.foldl_cons, ih _ j (fun y hy => by rw [List.length_set]; exact hmem y (by simp [hy]))]
    rcases eq_or_ne j x with rfl | hne
    · by_cases hjl : j ∈ l
      · simp [hjl]
      · rw [if_neg hjl, getD_set_self _ _ _ _ hx, if_pos (List.mem_cons_self j l)]
    · rw [getD_set_ne _ _ _ _ _ (Ne.symm hne)]
      simp [List.mem_cons, hne]

theorem buildRow_eq_foldl (board : List Bool) (size rowIndex : Nat) :
    buildRow board size rowIndex =
      ((toggleIdxs size ((rowIndex / size : Nat) : Int) ((rowIndex % size : Nat) : Int)).foldl
        (fun rd idx => rd.set idx 1) (List.replicate (size * size + 1) 0)).set
        (size * size) (if board.getD rowIndex false then 1 else 0) := by
  rw [buildRow, toggleIdxs, List.foldl_map]

theorem buildRow_length (board : List Bool) (size rowIndex : Nat) :
    (buildRow board size rowIndex).length = size * size + 1 := by
  rw [buildRow_eq_foldl, List.length_set, foldl_set_length, List.length_replicate]

theorem buildRow_coeff (board : List Bool) (size rowIndex : Nat) {j : Nat}
    (hj : j < size * size) :
    (buildRow board size rowIndex).getD j 0 =
      if j ∈ toggleIdxs size ((rowIndex / size : Nat) : Int) ((rowIndex % size : Nat) : Int)
      then 1 else 0 := by
  rw [buildRow_eq_foldl, getD_set_ne _ _ _ _ _ (by omega),
    foldl_set_getD _ _ _ _ _ (fun x hx => by
      rw [List.length_replicate]
      have := toggleIdxs_lt x hx
      omega)]
  rcases em (j ∈ toggleIdxs size ((rowIndex / size : Nat) : Int) ((rowIndex % size : Nat) : Int))
    with h | h
  · simp [h]
  · simp [h, getD_replicate_self]

theorem buildRow_aug (board : List Bool) (size rowIndex : Nat) :
    (buildRow board size rowIndex).getD (size * size) 0 =
      if board.getD rowIndex false then 1 else 0 := by
  rw [buildRow_eq_foldl]
  exact getD_set_self _ _ _ _ (by rw [foldl_set_length, List.length_replicate]; omega)

theorem buildMatrix_length (board : List Bool) (size : Nat) :
    (buildMatrix board size).length = size * size := by
  rw [buildMatrix, List.length_map, List.length_range]

theorem buildMatrix_row (board : List Bool) (size : Nat) {r : Nat} (hr : r < size * size) :
    mrow (buildMatrix board size) r = buildRow board size r := by
  rw [mrow, buildMatrix]
  exact getD_map_range _ _ hr

theorem buildRow_getD_le_one (board : List Bool) (size rowIndex k : Nat) :
    (buildRow board size rowIndex).getD k 0 ≤ 1 := by
  rcases Nat.lt_or_ge k (size * size) with h | h
  · rw [buildRow_coeff _ _ _ h]
    split <;> omega
  · rcases Nat.eq_or_lt_of_le h with h2 | h2
    · rw [← h2, buildRow_aug]
      split <;> omega
    · rw [getD_of_ge _ _ (by rw [buildRow_length]; omega)]
      omega

theorem buildMatrix_mget_le_one (board : List Bool) (size : Nat) (i k : Nat) :
    mget (buildMatrix board size) i k ≤ 1 := by
  rcases Nat.lt_or_ge i (size * size) with h | h
  · rw [mget, show (buildMatrix board size).getD i [] = mrow (buildMatrix board size) i from rfl,
      buildMatrix_row _ _ h]
    exact buildRow_getD_le_one _ _ _ _
  · rw [mget, show (buildMatrix board size).getD i [] = [] from
      getD_of_ge _ _ (by rw [buildMatrix_length]; omega)]
    simp

/-- The central symmetry: cell `i` is affected by pressing the switch at
cell `j` exactly when the coefficient `matrix[i][j]` built from the
board is 1. -/
theorem buildMatrix_coeff_iff (board : List Bool) (size : Nat) {i j : Nat}
    (hi : i < size * size) (hj : j < size * size) :
    mget (buildMatrix board size) i j =
      if i ∈ toggleIdxs size ((j / size : Nat) : Int) ((j % size : Nat) : Int) then 1 else 0 := by
  rw [mget, show (buildMatrix board size).getD i [] = mrow (buildMatrix board size) i from rfl,
    buildMatrix_row _ _ hi, buildRow_coeff _ _ _ hj]
  congr 1
  rw [eq_iff_iff, mem_toggleIdxs_iff hj, mem_toggleIdxs_iff hi]
  have hsize : 0 < size := by
    rcases Nat.eq_zero_or_pos size with h | h
    · subst h; simp at hi
    · exact h
  have hbnd : ∀ k : Nat, k < size * size →
      inBounds size ((k / size : Nat) : Int) ((k % size : Nat) : Int) = true := by
    intro k hk
    rw [inBounds_iff]
    have h1 : k / size < size := by
      rw [Nat.div_lt_iff_lt_mul hsize]
      omega
    have h2 : k % size < size := Nat.mod_lt _ hsize
    exact ⟨by positivity, by exact_mod_cast h1, by positivity, by exact_mod_cast h2⟩
  exact togglePositions_symm _ _ _ _ (hbnd j hj) (hbnd i hi)

theorem buildMatrix_aug (board : List Bool) (size : Nat) {i : Nat} (hi : i < size * size) :
    ((mget (buildMatrix board size) i (size * size) : Nat) : ZMod 2) =
      (if board.getD i false then 1 else 0) := by
  rw [mget, show (buildMatrix board size).getD i [] = mrow (buildMatrix board size) i from rfl,
    buildMatrix_row _ _ hi, buildRow_aug]
  split <;> decide

/-! ### Counting toolkit over GF(2) -/

theorem sum_map_eq_sum_count {n : Nat} :
    ∀ (l : List Nat), (∀ a ∈ l, a < n) → ∀ (f : Nat → ZMod 2),
      (l.map f).sum = ∑ j ∈ Finset.range n, (l.count j : ZMod 2) * f j := by
  intro l
  induction l with
  | nil =>
    intro _ f
    simp
  | cons a l ih =>
    intro hmem f
    have ha : a < n := hmem a (by simp)
    rw [List.map_cons, List.sum_cons, ih (fun b hb => hmem b (by simp [hb])) f]
    have hsum : ∑ j ∈ Finset.range n, (List.count j (a :: l) : ZMod 2) * f j =
        ∑ j ∈ Finset.range n,
          ((List.count j l : ZMod 2) * f j + (if j = a then f j else 0)) := by
      apply Finset.sum_congr rfl
      intro j _
      rw [List.count_cons]
      rcases eq_or_ne j a with rfl | hne
      · simp
        ring
      · have hbeq : (a == j) = false := by simp [Ne.symm hne]
        simp [hbeq, hne]
    rw [hsum, Finset.sum_add_distrib, Finset.sum_ite_eq' (Finset.range n) a f]
    simp only [Finset.mem_range, ha, if_pos]
    ring

theorem sum_map_ite_eq_countP {α : Type} (q : α → Prop) [DecidablePred q] :
    ∀ (l : List α),
      (l.map (fun j => if q j then (1 : ZMod 2) else 0)).sum =
        ((l.countP (fun j => decide (q j)) : Nat) : ZMod 2) := by
  intro l
  induction l with
  | nil => simp
  | cons a l ih =>
    rw [List.map_cons, List.sum_cons, ih, List.countP_cons]
    by_cases h : q a
    · simp [h]
      ring
    · simp [h]

/-! ### Bridging board clearing and the linear system -/

theorem size_pos_of_lt_sq {size i : Nat} (hi : i < size * size) : 0 < size := by
  rcases Nat.eq_zero_or_pos size with h | h
  · subst h; simp at hi
  · exact h

theorem encode_mem_map {size : Nat} {ps : List (Nat × Nat)}
    (hps : ∀ p ∈ ps, p.1 < size ∧ p.2 < size) {j : Nat} (hj : j < size * size) :
    j ∈ ps.map (fun p => p.1 * size + p.2) ↔ ((j / size : Nat), (j % size : Nat)) ∈ ps := by
  constructor
  · intro h
    obtain ⟨p, hp, hpe⟩ := List.mem_map.1 h
    obtain ⟨_, h2⟩ := hps p hp
    have hd : j / size = p.1 := by rw [← hpe, encode_div h2]
    have hm : j % size = p.2 := by rw [← hpe, encode_mod h2]
    rw [hd, hm, Prod.mk.eta]
    exact hp
  · intro h
    apply List.mem_map.2
    refine ⟨_, h, ?_⟩
    have hsz : 0 < size := size_pos_of_lt_sq hj
    show j / size * size + j % size = j
    rw [Nat.mul_comm]
    exact Nat.div_add_mod j size

theorem encode_map_nodup {size : Nat} {ps : List (Nat × Nat)} (hnd : ps.Nodup)
    (hps : ∀ p ∈ ps, p.1 < size ∧ p.2 < size) :
    (ps.map (fun p => p.1 * size + p.2)).Nodup := by
  apply List.Nodup.map_on _ hnd
  intro p hp q hq he
  obtain ⟨_, hp2⟩ := hps p hp
  obtain ⟨_, hq2⟩ := hps q hq
  have h1 : p.1 = q.1 := by
    have := congrArg (· / size) he
    simpa [encode_div hp2, encode_div hq2] using this
  have h2 : p.2 = q.2 := by
    have := congrArg (· % size) he
    simpa [encode_mod hp2, encode_mod hq2] using this
  exact Prod.ext h1 h2

theorem sum_ite_mem_eq_countP (size i : Nat) (ps : List (Nat × Nat))
    (hnd : ps.Nodup) (hps : ∀ p ∈ ps, p.1 < size ∧ p.2 < size) :
    (∑ j ∈ Finset.range (size * size),
        (if j ∈ ps.map (fun p => p.1 * size + p.2) then
          (if i ∈ toggleIdxs size ((j / size : Nat) : Int) ((j % size : Nat) : Int)
            then (1 : ZMod 2) else 0) else 0)) =
      ((ps.countP (fun p => decide (i ∈ toggleIdxs size p.1 p.2)) : Nat) : ZMod 2) := by
  have hlt : ∀ a ∈ ps.map (fun p => p.1 * size + p.2), a < size * size := by
    intro a ha
    obtain ⟨p, hp, hpe⟩ := List.mem_map.1 ha
    obtain ⟨h1, h2⟩ := hps p hp
    rw [← hpe]
    exact encode_lt h1 h2
  have hnd2 : (ps.map (fun p => p.1 * size + p.2)).Nodup := encode_map_nodup hnd hps
  have hcnt : ∀ j ∈ Finset.range (size * size),
      ((List.count j (ps.map (fun p => p.1 * size + p.2)) : Nat) : ZMod 2) *
        (if i ∈ toggleIdxs size ((j / size : Nat) : Int) ((j % size : Nat) : Int)
          then (1 : ZMod 2) else 0) =
      (if j ∈ ps.map (fun p => p.1 * size + p.2) then
        (if i ∈ toggleIdxs size ((j / size : Nat) : Int) ((j % size : Nat) : Int)
          then (1 : ZMod 2) else 0) else 0) := by
    intro j _
    by_cases hm : j ∈ ps.map (fun p => p.1 * size + p.2)
    · rw [List.count_eq_one_of_mem hnd2 hm, if_pos hm]
      simp
    · rw [List.count_eq_zero_of_not_mem hm, if_neg hm]
      simp
  rw [Finset.sum_congr rfl (fun j hj => (hcnt j hj).symm),
    ← sum_map_eq_sum_count _ hlt, List.map_map]
  rw [List.map_congr_left (g := fun p : Nat × Nat =>
      if i ∈ toggleIdxs size p.1 p.2 then (1 : ZMod 2) else 0) (fun p hp => by
    obtain ⟨h1, h2⟩ := hps p hp
    simp only [Function.comp_apply]
    rw [encode_div h2, encode_mod h2])]
  exact sum_map_ite_eq_countP _ _

theorem rowVal_eq_countP (board : List Bool) (size : Nat) (ps : List (Nat × Nat))
    (hnd : ps.Nodup) (hps : ∀ p ∈ ps, p.1 < size ∧ p.2 < size) (x : List Bool)
    (hx : ∀ p : Nat × Nat, p.1 < size → p.2 < size →
      (x.getD (p.1 * size + p.2) false = true ↔ p ∈ ps))
    {i : Nat} (hi : i < size * size) :
    rowVal (size * size) (mrow (buildMatrix board size) i) x =
      ((ps.countP (fun p => decide (i ∈ toggleIdxs size p.1 p.2)) : Nat) : ZMod 2) := by
  rw [rowVal]
  have hstep : ∀ j ∈ Finset.range (size * size),
      ((mrow (buildMatrix board size) i).getD j 0 : ZMod 2) *
        (if x.getD j false then 1 else 0) =
      (if j ∈ ps.map (fun p => p.1 * size + p.2) then
        (if i ∈ toggleIdxs size ((j / size : Nat) : Int) ((j % size : Nat) : Int)
          then (1 : ZMod 2) else 0) else 0) := by
    intro j hj
    rw [Finset.mem_range] at hj
    have hsz : 0 < size := size_pos_of_lt_sq hj
    have hrw : ((mrow (buildMatrix board size) i).getD j 0 : ZMod 2) =
        (if i ∈ toggleIdxs size ((j / size : Nat) : Int) ((j % size : Nat) : Int)
          then (1 : ZMod 2) else 0) := by
      rw [show (mrow (buildMatrix board size) i).getD j 0 =
          mget (buildMatrix board size) i j from rfl,
        buildMatrix_coeff_iff board size hi hj]
      split <;> simp
    have hxj : (x.getD j false = true) ↔ j ∈ ps.map (fun p => p.1 * size + p.2) := by
      rw [encode_mem_map hps hj]
      have h2 : j % size < size := Nat.mod_lt _ hsz
      have h1 : j / size < size := by
        rw [Nat.div_lt_iff_lt_mul hsz]
        omega
      have hxp := hx (j / size, j % size) h1 h2
      have hjj : j / size * size + j % size = j := by
        rw [Nat.mul_comm]
        exact Nat.div_add_mod j size
      simpa [hjj] using hxp
    by_cases hxm : x.getD j false = true
    · rw [hxm, hrw, if_pos (hxj.1 hxm)]
      simp
    · have hx0 : x.getD j false = false := by
        cases h : x.getD j false
        · rfl
        · exact absurd h hxm
      rw [hx0, if_neg (fun hm => hxm (hxj.2 hm))]
      simp
  rw [Finset.sum_congr rfl hstep]
  exact sum_ite_mem_eq_countP size i ps hnd hps

theorem xor_eq_false_iff (b o : Bool) : (b ^^ o) = false ↔ b = o := by
  cases b <;> cases o <;> decide

theorem eq_replicate_false_iff {l : List Bool} {n : Nat} :
    l = List.replicate n false ↔ l.length = n ∧ ∀ i, i < n → l.getD i false = false := by
  rw [List.eq_replicate_iff]
  constructor
  · rintro ⟨h1, h2⟩
    refine ⟨h1, fun i hi => ?_⟩
    rw [List.getD_eq_getElem _ _ (by omega)]
    exact h2 _ (List.getElem_mem _)
  · rintro ⟨h1, h2⟩
    refine ⟨h1, fun b hb => ?_⟩
    obtain ⟨i, hi, rfl⟩ := List.mem_iff_getElem.1 hb
    rw [← List.getD_eq_getElem _ false hi]
    exact h2 i (by omega)

/-- For a duplicate-free press list `ps` matching the true entries of the
assignment `x`, pressing everything in `ps` clears the board exactly when
`x` solves the linear system built from the board. -/
theorem applyPresses_clears_iff (board : List Bool) (size : Nat)
    (hb : board.length = size * size) (ps : List (Nat × Nat)) (hnd : ps.Nodup)
    (hps : ∀ p ∈ ps, p.1 < size ∧ p.2 < size) (x : List Bool)
    (hx : ∀ p : Nat × Nat, p.1 < size → p.2 < size →
      (x.getD (p.1 * size + p.2) false = true ↔ p ∈ ps)) :
    applyPresses size ps board = List.replicate (size * size) false ↔
      matSat (size * size) (buildMatrix board size) x := by
  rw [eq_replicate_false_iff]
  have hlen : (applyPresses size ps board).length = size * size := by
    rw [applyPresses_length size ps board hb, hb]
  simp only [hlen, true_and]
  constructor
  · intro h i hi
    have hgd := applyPresses_getD size ps board hb i
    rw [h i hi] at hgd
    rw [rowSat, rowVal_eq_countP board size ps hnd hps x hx hi,
      show mrow (buildMatrix board size) i = mrow (buildMatrix board size) i from rfl]
    have haug := buildMatrix_aug board size hi
    rw [show ((mrow (buildMatrix board size) i).getD (size * size) 0 : ZMod 2) =
        ((mget (buildMatrix board size) i (size * size) : Nat) : ZMod 2) from rfl, haug,
      natCast_zmod_two]
    have hbo : board.getD i false =
        decide (Odd (ps.countP (fun p => decide (i ∈ toggleIdxs size p.1 p.2)))) :=
      (xor_eq_false_iff _ _).1 hgd.symm
    rw [hbo]
    by_cases hodd : Odd (ps.countP (fun p => decide (i ∈ toggleIdxs size p.1 p.2))) <;>
      simp [hodd]
  · intro h i hi
    have hsat := h i hi
    rw [rowSat, rowVal_eq_countP board size ps hnd hps x hx hi] at hsat
    rw [show ((mrow (buildMatrix board size) i).getD (size * size) 0 : ZMod 2) =
        ((mget (buildMatrix board size) i (size * size) : Nat) : ZMod 2) from rfl,
      buildMatrix_aug board size hi, natCast_zmod_two] at hsat
    rw [applyPresses_getD size ps board hb i, xor_eq_false_iff]
    by_cases hodd : Odd (ps.countP (fun p => decide (i ∈ toggleIdxs size p.1 p.2))) <;>
      cases hbv : board.getD i false <;>
      rw [hbv] at hsat <;> simp [hodd] at hsat ⊢

/-! ### Elimination-step lemmas -/

theorem mget_eq (m : List (List Nat)) (j k : Nat) : mget m j k = (mrow m j).getD k 0 := rfl

theorem mrow_lswap {m : List (List Nat)} {i r : Nat} (hi : i < m.length) (hr : r < m.length)
    (j : Nat) :
    mrow (lswap m i r) j = if j = r then mrow m i else if j = i then mrow m r else mrow m j := by
  simp only [lswap, mrow]
  rcases eq_or_ne j r with rfl | hjr
  · rw [if_pos rfl]
    exact getD_set_self _ _ _ _ (by rw [List.length_set]; exact hr)
  · rw [if_neg hjr, getD_set_ne _ _ _ _ _ (Ne.symm hjr)]
    rcases eq_or_ne j i with rfl | hji
    · rw [if_pos rfl]
      exact getD_set_self _ _ _ _ hi
    · rw [if_neg hji, getD_set_ne _ _ _ _ _ (Ne.symm hji)]

theorem lswap_length (m : List (List Nat)) (i r : Nat) : (lswap m i r).length = m.length := by
  simp [lswap]

theorem xorRowFrom_length (total : Nat) (target pivot : List Nat) (lead : Nat) :
    (xorRowFrom total target pivot lead).length = total + 1 := by
  rw [xorRowFrom, List.length_map, List.length_range]

theorem xorRowFrom_getD (total : Nat) (target pivot : List Nat) (lead : Nat) {k : Nat}
    (hk : k < total + 1) :
    (xorRowFrom total target pivot lead).getD k 0 =
      if lead ≤ k then target.getD k 0 ^^^ pivot.getD k 0 else target.getD k 0 := by
  rw [xorRowFrom]
  exact getD_map_range _ _ hk

theorem eliminateAll_length (total : Nat) (m : List (List Nat)) (r lead : Nat) :
    (eliminateAll total m r lead).length = total := by
  rw [eliminateAll, List.length_map, List.length_range]

theorem mrow_eliminateAll {total : Nat} {m : List (List Nat)} {r lead : Nat} {j : Nat}
    (hj : j < total) :
    mrow (eliminateAll total m r lead) j =
      if j ≠ r ∧ mget m j lead = 1 then xorRowFrom total (mrow m j) (mrow m r) lead
      else mrow m j := by
  rw [mrow, eliminateAll]
  exact getD_map_range _ _ hj

theorem pivotGo_spec (m : List (List Nat)) (total lead : Nat) :
    ∀ (fuel i : Nat), i ≤ total → total ≤ i + fuel →
      i ≤ pivotGo m total lead i fuel ∧ pivotGo m total lead i fuel ≤ total ∧
      (pivotGo m total lead i fuel < total → mget m (pivotGo m total lead i fuel) lead ≠ 0) ∧
      (∀ q, i ≤ q → q < pivotGo m total lead i fuel → mget m q lead = 0) := by
  intro fuel
  induction fuel with
  | zero =>
    intro i h1 h2
    rw [pivotGo]
    refine ⟨Nat.le_refl _, h1, fun h => absurd h (by omega), fun q hq1 hq2 => absurd hq2 (by omega)⟩
  | succ fuel ih =>
    intro i h1 h2
    rw [pivotGo]
    by_cases hc : i < total ∧ mget m i lead = 0
    · rw [if_pos hc]
      obtain ⟨ha, hb, hcc, hd⟩ := ih (i + 1) (by omega) (by omega)
      refine ⟨by omega, hb, hcc, ?_⟩
      intro q hq1 hq2
      rcases eq_or_ne q i with rfl | hne
      · exact hc.2
      · exact hd q (by omega) hq2
    · rw [if_neg hc]
      refine ⟨Nat.le_refl _, h1, fun h h0 => hc ⟨h, h0⟩, fun q hq1 hq2 => absurd hq2 (by omega)⟩

theorem findPivotRow_spec (m : List (List Nat)) (total lead r : Nat) (hr : r ≤ total) :
    r ≤ findPivotRow m total lead r ∧ findPivotRow m total lead r ≤ total ∧
    (findPivotRow m total lead r < total → mget m (findPivotRow m total lead r) lead ≠ 0) ∧
    (∀ q, r ≤ q → q < findPivotRow m total lead r → mget m q lead = 0) :=
  pivotGo_spec m total lead (total - r + 1) r hr (by omega)

theorem matSat_lswap (total : Nat) {m : List (List Nat)} {i r : Nat}
    (hlen : m.length = total) (hi : i < total) (hr : r < total) (x : List Bool) :
    matSat total (lswap m i r) x ↔ matSat total m x := by
  have hi' : i < m.length := by omega
  have hr' : r < m.length := by omega
  constructor
  · intro h j hj
    by_cases hji : j = i
    · have hthis := h r hr
      rw [mrow_lswap hi' hr', if_pos rfl] at hthis
      rw [hji]
      exact hthis
    · by_cases hjr : j = r
      · have hthis := h i hi
        have hir : i ≠ r := by
          intro he
          exact hji (by rw [hjr, he])
        rw [mrow_lswap hi' hr', if_neg hir, if_pos rfl] at hthis
        rw [hjr]
        exact hthis
      · have hthis := h j hj
        rwa [mrow_lswap hi' hr', if_neg hjr, if_neg hji] at hthis
  · intro h j hj
    rw [show mrow (lswap m i r) j = _ from mrow_lswap hi' hr' j]
    rcases eq_or_ne j r with rfl | hjr
    · rw [if_pos rfl]
      exact h i hi
    · rw [if_neg hjr]
      rcases eq_or_ne j i with rfl | hji
      · rw [if_pos rfl]
        exact h r hr
      · rw [if_neg hji]
        exact h j hj

theorem rowVal_xorRowFrom (total : Nat) (target pivot : List Nat) (lead : Nat)
    (hbt : ∀ k, target.getD k 0 ≤ 1) (hbp : ∀ k, pivot.getD k 0 ≤ 1)
    (hpz : ∀ k, k < lead → pivot.getD k 0 = 0) (x : List Bool) :
    rowVal total (xorRowFrom total target pivot lead) x =
      rowVal total target x + rowVal total pivot x := by
  rw [rowVal, rowVal, rowVal, ← Finset.sum_add_distrib]
  apply Finset.sum_congr rfl
  intro j hj
  rw [Finset.mem_range] at hj
  rw [xorRowFrom_getD _ _ _ _ (by omega)]
  by_cases hl : lead ≤ j
  · rw [if_pos hl, cast_xor_bit (hbt j) (hbp j), add_mul]
  · rw [if_neg hl, hpz j (by omega)]
    simp

theorem rowSat_xor_iff (total : Nat) (target pivot : List Nat) (lead : Nat)
    (hbt : ∀ k, target.getD k 0 ≤ 1) (hbp : ∀ k, pivot.getD k 0 ≤ 1)
    (hpz : ∀ k, k < lead → pivot.getD k 0 = 0) (hlead : lead ≤ total) (x : List Bool)
    (hsp : rowSat total pivot x) :
    rowSat total (xorRowFrom total target pivot lead) x ↔ rowSat total target x := by
  rw [rowSat, rowSat, rowVal_xorRowFrom total target pivot lead hbt hbp hpz x,
    xorRowFrom_getD _ _ _ _ (by omega), if_pos hlead,
    cast_xor_bit (hbt total) (hbp total)]
  rw [rowSat] at hsp
  rw [hsp]
  constructor
  · intro he
    exact add_right_cancel he
  · intro he
    rw [he]

theorem matSat_eliminateAll (total : Nat) {m : List (List Nat)} {r lead : Nat}
    (hbnd : ∀ i k, mget m i k ≤ 1) (hr : r < total) (hlead : lead < total)
    (hpz : ∀ k, k < lead → mget m r k = 0) (x : List Bool) :
    matSat total (eliminateAll total m r lead) x ↔ matSat total m x := by
  constructor
  · intro h j hj
    have hrsat : rowSat total (mrow m r) x := by
      have := h r hr
      rwa [mrow_eliminateAll hr, if_neg (by simp)] at this
    by_cases hc : j ≠ r ∧ mget m j lead = 1
    · have := h j hj
      rw [mrow_eliminateAll hj, if_pos hc] at this
      exact (rowSat_xor_iff total _ _ lead (fun k => hbnd j k) (fun k => hbnd r k)
        hpz (by omega) x hrsat).1 this
    · have := h j hj
      rwa [mrow_eliminateAll hj, if_neg hc] at this
  · intro h j hj
    rw [mrow_eliminateAll hj]
    by_cases hc : j ≠ r ∧ mget m j lead = 1
    · rw [if_pos hc]
      exact (rowSat_xor_iff total _ _ lead (fun k => hbnd j k) (fun k => hbnd r k)
        hpz (by omega) x (h r hr)).2 (h j hj)
    · rw [if_neg hc]
      exact h j hj

theorem eliminateAll_rlen {total : Nat} {m : List (List Nat)} (r lead : Nat)
    (hrlen : ∀ i, i < total → (mrow m i).length = total + 1) :
    ∀ i, i < total → (mrow (eliminateAll total m r lead) i).length = total + 1 := by
  intro i hi
  rw [mrow_eliminateAll hi]
  by_cases hc : i ≠ r ∧ mget m i lead = 1
  · rw [if_pos hc, xorRowFrom_length]
  · rw [if_neg hc]
    exact hrlen i hi

theorem eliminateAll_bnd (total : Nat) {m : List (List Nat)} (r lead : Nat)
    (hbnd : ∀ i k, mget m i k ≤ 1) :
    ∀ i k, mget (eliminateAll total m r lead) i k ≤ 1 := by
  intro i k
  rcases Nat.lt_or_ge i total with hi | hi
  · rw [mget_eq, mrow_eliminateAll hi]
    by_cases hc : i ≠ r ∧ mget m i lead = 1
    · rw [if_pos hc]
      rcases Nat.lt_or_ge k (total + 1) with hk | hk
      · rw [xorRowFrom_getD _ _ _ _ hk]
        by_cases hl : lead ≤ k
        · rw [if_pos hl]
          exact xor_le_one (hbnd i k) (hbnd r k)
        · rw [if_neg hl]
          exact hbnd i k
      · rw [getD_of_ge _ _ (by rw [xorRowFrom_length]; omega)]
        omega
    · rw [if_neg hc]
      exact hbnd i k
  · rw [mget, show (eliminateAll total m r lead).getD i [] = [] from
      getD_of_ge _ _ (by rw [eliminateAll_length]; omega)]
    simp

theorem lswap_rlen {total : Nat} {m : List (List Nat)} {i r : Nat}
    (hlen : m.length = total) (hi : i < total) (hr : r < total)
    (hrlen : ∀ j, j < total → (mrow m j).length = total + 1) :
    ∀ j, j < total → (mrow (lswap m i r) j).length = total + 1 := by
  intro j hj
  rw [mrow_lswap (by omega) (by omega)]
  split_ifs
  · exact hrlen i hi
  · exact hrlen r hr
  · exact hrlen j hj

theorem lswap_bnd {total : Nat} {m : List (List Nat)} {i r : Nat}
    (hlen : m.length = total) (hi : i < total) (hr : r < total)
    (hbnd : ∀ j k, mget m j k ≤ 1) :
    ∀ j k, mget (lswap m i r) j k ≤ 1 := by
  intro j k
  rw [mget_eq, mrow_lswap (by omega) (by omega)]
  split_ifs
  · exact hbnd i k
  · exact hbnd r k
  · exact hbnd j k

/-- One pivot step (swap the pivot row into place, then clear its column
from every other row) preserves the elimination invariant and the
solution set of the system. -/
theorem elimStep_spec (total : Nat) {m : List (List Nat)} {r lead p : Nat}
    (hinv : ElimInv total m r lead) (hg1 : r < total) (hg2 : lead < total)
    (hp1 : r ≤ p) (hplt : p < total) (hp3 : mget m p lead ≠ 0) :
    ElimInv total (eliminateAll total (lswap m p r) r lead) (r + 1) (lead + 1) ∧
    (∀ x, matSat total (eliminateAll total (lswap m p r) r lead) x ↔ matSat total m x) := by
  have hLrl := hinv.hrl
  have hLlt := hinv.hlt
  have hm1len : (lswap m p r).length = total := by
    rw [lswap_length, hinv.len]
  have hm1row := fun j => mrow_lswap
    (show p < m.length by rw [hinv.len]; omega)
    (show r < m.length by rw [hinv.len]; omega) j
  have hm1rlen := lswap_rlen hinv.len hplt hg1 hinv.rlen
  have hm1bnd := lswap_bnd hinv.len hplt hg1 hinv.bnd
  have hm1get : ∀ j k, mget (lswap m p r) j k =
      if j = r then mget m p k else if j = p then mget m r k else mget m j k := by
    intro j k
    rw [mget_eq, hm1row j]
    split_ifs <;> rfl
  have hm1low : ∀ i, r ≤ i → i < total → ∀ k, k < lead → mget (lswap m p r) i k = 0 := by
    intro i hi1 hi2 k hk
    rw [hm1get]
    split_ifs with h1 h2
    · exact hinv.low p hp1 hplt k hk
    · exact hinv.low r (Nat.le_refl r) hg1 k hk
    · exact hinv.low i hi1 hi2 k hk
  have hm1rlead : mget (lswap m p r) r lead = 1 := by
    rw [hm1get, if_pos rfl]
    have hle := hinv.bnd p lead
    omega
  have hm2len : (eliminateAll total (lswap m p r) r lead).length = total :=
    eliminateAll_length _ _ _ _
  have hm2rlen := eliminateAll_rlen r lead hm1rlen
  have hm2bnd := eliminateAll_bnd total r lead hm1bnd
  have hm2get : ∀ j k, j < total → k ≤ total →
      mget (eliminateAll total (lswap m p r) r lead) j k =
        if j ≠ r ∧ mget (lswap m p r) j lead = 1
        then (if lead ≤ k then mget (lswap m p r) j k ^^^ mget (lswap m p r) r k
          else mget (lswap m p r) j k)
        else mget (lswap m p r) j k := by
    intro j k hj hk
    rcases em (j ≠ r ∧ mget (lswap m p r) j lead = 1) with h1 | h1
    · rw [mget_eq, mrow_eliminateAll hj, if_pos h1,
        xorRowFrom_getD _ _ _ _ (by omega), if_pos h1]
      rfl
    · rw [mget_eq, mrow_eliminateAll hj, if_neg h1, if_neg h1]
      rfl
  constructor
  · refine ⟨hm2len, hm2rlen, hm2bnd, by omega, by omega, ?_, ?_⟩
    · -- low
      intro i hi1 hi2 k hk
      have hir : i ≠ r := by omega
      rw [hm2get i k hi2 (by omega)]
      by_cases hc : i ≠ r ∧ mget (lswap m p r) i lead = 1
      · rw [if_pos hc]
        rcases Nat.lt_or_ge k lead with hkl | hkl
        · rw [if_neg (by omega)]
          exact hm1low i (by omega) hi2 k hkl
        · have hkeq : k = lead := by omega
          subst hkeq
          rw [if_pos (Nat.le_refl k), hc.2, hm1rlead]
          decide
      · rw [if_neg hc]
        rcases Nat.lt_or_ge k lead with hkl | hkl
        · exact hm1low i (by omega) hi2 k hkl
        · have hkeq : k = lead := by omega
          subst hkeq
          have hb := hm1bnd i k
          have hne1 : ¬mget (lswap m p r) i k = 1 := fun h => hc ⟨hir, h⟩
          omega
    · -- piv
      intro i hi
      rcases Nat.lt_or_ge i r with hir | hir
      · obtain ⟨c, hc1, hc2, hc3, hc4⟩ := hinv.piv i hir
        have hir2 : i ≠ r := by omega
        have hip : i ≠ p := by omega
        have hival : ∀ k, mget (lswap m p r) i k = mget m i k := by
          intro k
          rw [hm1get, if_neg hir2, if_neg hip]
        refine ⟨c, by omega, ?_, ?_, ?_⟩
        · intro k hk
          rw [hm2get i k (by omega) (by omega)]
          by_cases hcnd : i ≠ r ∧ mget (lswap m p r) i lead = 1
          · rw [if_pos hcnd, if_neg (by omega), hival]
            exact hc2 k hk
          · rw [if_neg hcnd, hival]
            exact hc2 k hk
        · rw [hm2get i c (by omega) (by omega)]
          by_cases hcnd : i ≠ r ∧ mget (lswap m p r) i lead = 1
          · rw [if_pos hcnd, if_neg (by omega), hival]
            exact hc3
          · rw [if_neg hcnd, hival]
            exact hc3
        · intro j hj hjne
          rw [hm2get j c hj (by omega)]
          have hjval : mget (lswap m p r) j c = 0 := by
            rw [hm1get]
            split_ifs with h1 h2
            · exact hc4 p hplt (by omega)
            · exact hc4 r hg1 (by omega)
            · exact hc4 j hj hjne
          by_cases hcnd : j ≠ r ∧ mget (lswap m p r) j lead = 1
          · rw [if_pos hcnd, if_neg (by omega), hjval]
          · rw [if_neg hcnd, hjval]
      · have hieq : i = r := by omega
        subst hieq
        refine ⟨lead, by omega, ?_, ?_, ?_⟩
        · intro k hk
          rw [hm2get i k (by omega) (by omega), if_neg (by simp)]
          exact hm1low i (Nat.le_refl i) (by omega) k hk
        · rw [hm2get i lead (by omega) (by omega), if_neg (by simp)]
          exact hm1rlead
        · intro j hj hjne
          rw [hm2get j lead hj (by omega)]
          by_cases hcnd : j ≠ i ∧ mget (lswap m p i) j lead = 1
          · rw [if_pos hcnd, if_pos (Nat.le_refl lead), hcnd.2, hm1rlead]
            decide
          · rw [if_neg hcnd]
            have hb := hm1bnd j lead
            have hne1 : ¬mget (lswap m p i) j lead = 1 := fun h => hcnd ⟨hjne, h⟩
            omega
  · intro x
    rw [matSat_eliminateAll total hm1bnd hg1 hg2
      (fun k hk => hm1low r (Nat.le_refl r) hg1 k hk) x]
    exact matSat_lswap total hinv.len hplt hg1 x

/-- Elimination with enough fuel turns any matrix satisfying the loop
invariant into a fully reduced matrix with the same solution set. -/
theorem elimGo_spec (total : Nat) :
    ∀ (fuel : Nat) (m : List (List Nat)) (r lead : Nat),
      ElimInv total m r lead → total ≤ fuel + lead →
      ElimOut total (elimGo total fuel m r lead) ∧
      (∀ x, matSat total (elimGo total fuel m r lead) x ↔ matSat total m x) := by
  intro fuel
  induction fuel with
  | zero =>
    intro m r lead hinv hfuel
    have hLlt := hinv.hlt
    rw [show elimGo total 0 m r lead = m from rfl]
    refine ⟨⟨hinv.len, hinv.rlen, hinv.bnd, ?_⟩, fun x => Iff.rfl⟩
    intro i hi
    rcases Nat.lt_or_ge i r with hir | hir
    · right
      obtain ⟨c, hc1, hc2, hc3, hc4⟩ := hinv.piv i hir
      exact ⟨c, by omega, hc2, hc3, hc4⟩
    · left
      intro k hk
      exact hinv.low i hir hi k (by omega)
  | succ fuel ih =>
    intro m r lead hinv hfuel
    have hLrl := hinv.hrl
    have hLlt := hinv.hlt
    by_cases hg : r < total ∧ lead < total
    · obtain ⟨hp1, hp2, hp3, hp4⟩ := findPivotRow_spec m total lead r (by omega)
      by_cases hpt : findPivotRow m total lead r = total
      · rw [elimGo_succ, if_pos hg, if_pos hpt]
        have hinv2 : ElimInv total m r (lead + 1) := by
          refine ⟨hinv.len, hinv.rlen, hinv.bnd, by omega, by omega, ?_, ?_⟩
          · intro i hi1 hi2 k hk
            rcases Nat.lt_or_ge k lead with hkl | hkl
            · exact hinv.low i hi1 hi2 k hkl
            · have hkeq : k = lead := by omega
              subst hkeq
              exact hp4 i hi1 (by omega)
          · intro i hi
            obtain ⟨c, hc1, hc2, hc3, hc4⟩ := hinv.piv i hi
            exact ⟨c, by omega, hc2, hc3, hc4⟩
        exact ih m r (lead + 1) hinv2 (by omega)
      · rw [elimGo_succ, if_pos hg, if_neg hpt]
        have hplt : findPivotRow m total lead r < total := by omega
        obtain ⟨hinv2, hiff2⟩ :=
          elimStep_spec total hinv hg.1 hg.2 hp1 hplt (hp3 hplt)
        obtain ⟨hout, hiff⟩ := ih
          (eliminateAll total (lswap m (findPivotRow m total lead r) r) r lead)
          (r + 1) (lead + 1) hinv2 (by omega)
        refine ⟨hout, fun x => ?_⟩
        rw [hiff x]
        exact hiff2 x
    · rw [elimGo_succ, if_neg hg]
      refine ⟨⟨hinv.len, hinv.rlen, hinv.bnd, ?_⟩, fun x => Iff.rfl⟩
      intro i hi
      rcases Nat.lt_or_ge i r with hir | hir
      · right
        obtain ⟨c, hc1, hc2, hc3, hc4⟩ := hinv.piv i hir
        exact ⟨c, by omega, hc2, hc3, hc4⟩
      · left
        intro k hk
        exact hinv.low i hir hi k (by omega)

/-! ### Reading off the solution -/

theorem findIdx?_first_nat (q : Nat → Bool) :
    ∀ (l : List Nat) (j s : Nat), j < l.length → q (l.getD j 0) = true →
      (∀ k, k < j → q (l.getD k 0) = false) →
      List.findIdx? q l s = some (s + j) := by
  intro l
  induction l with
  | nil =>
    intro j s hj _ _
    simp at hj
  | cons a l ih =>
    intro j s hj hq hlt
    rw [List.findIdx?_cons]
    cases j with
    | zero =>
      rw [if_pos (by simpa using hq)]
      rfl
    | succ j =>
      have hqa : q a = false := by simpa using hlt 0 (by omega)
      rw [if_neg (by simp [hqa])]
      rw [ih j (s + 1) (by simpa using hj) (by simpa using hq)
        (fun k hk => by simpa using hlt (k + 1) (by omega))]
      congr 1
      omega

theorem getD_take {α : Type} (l : List α) (d : α) {n k : Nat} (hk : k < n)
    (hkl : k < l.length) :
    (l.take n).getD k d = l.getD k d := by
  have h1 : k < (l.take n).length := by
    rw [List.length_take]
    omega
  rw [List.getD_eq_getElem _ _ h1, List.getElem_take, List.getD_eq_getElem _ _ hkl]

theorem findPivotIndex_eq_some {total : Nat} {row : List Nat} (hlen : row.length = total + 1)
    {c : Nat} (hc : c < total) (hone : row.getD c 0 = 1)
    (hzero : ∀ k, k < c → row.getD k 0 = 0) :
    findPivotIndex row total = some c := by
  rw [findPivotIndex]
  have h1 : c < (row.take total).length := by
    rw [List.length_take]
    omega
  have := findIdx?_first_nat (fun v => v == 1) (row.take total) c 0 h1
    (by rw [getD_take _ _ hc (by omega), hone]; rfl)
    (fun k hk => by rw [getD_take _ _ (by omega) (by omega), hzero k hk]; rfl)
  simpa using this

theorem findPivotIndex_eq_none {total : Nat} {row : List Nat}
    (hzero : ∀ k, k < total → row.getD k 0 = 0) :
    findPivotIndex row total = none := by
  rw [findPivotIndex, List.findIdx?_eq_none_iff]
  intro x hx
  obtain ⟨k, hk, rfl⟩ := List.mem_iff_getElem.1 hx
  have hk2 : k < total := by
    have := hk
    rw [List.length_take] at this
    omega
  have hkl : k < row.length := by
    have := hk
    rw [List.length_take] at this
    omega
  rw [← List.getD_eq_getElem _ 0 hk, getD_take _ _ hk2 hkl, hzero k hk2]
  rfl

theorem setFold_getD_none (total : Nat) (m : List (List Nat)) :
    ∀ (rs : List Nat) (init : List Bool) (j : Nat),
      (∀ r ∈ rs, findPivotIndex (mrow m r) total ≠ some j) →
      ((rs.foldl (fun solution r =>
        match findPivotIndex (mrow m r) total with
        | some pivotIndex => solution.set pivotIndex ((mrow m r).getD total 0 == 1)
        | none => solution) init).getD j false) = init.getD j false := by
  intro rs
  induction rs with
  | nil =>
    intro init j _
    rfl
  | cons a rs ih =>
    intro init j hmem
    rw [List.foldl_cons, ih _ _ (fun r hr => hmem r (by simp [hr]))]
    rcases hp : findPivotIndex (mrow m a) total with _ | q
    · simp only [hp]
    · simp only [hp]
      have hq : q ≠ j := by
        intro he
        exact hmem a (by simp) (by rw [hp, he])
      exact getD_set_ne _ _ _ _ _ hq

theorem setFold_length (total : Nat) (m : List (List Nat)) :
    ∀ (rs : List Nat) (init : List Bool),
      (rs.foldl (fun solution r =>
        match findPivotIndex (mrow m r) total with
        | some pivotIndex => solution.set pivotIndex ((mrow m r).getD total 0 == 1)
        | none => solution) init).length = init.length := by
  intro rs
  induction rs with
  | nil => intro init; rfl
  | cons a rs ih =>
    intro init
    rw [List.foldl_cons, ih]
    rcases hp : findPivotIndex (mrow m a) total with _ | q <;> simp [hp]

theorem setFold_getD_unique (total : Nat) (m : List (List Nat)) :
    ∀ (rs : List Nat) (init : List Bool) (j r0 : Nat), rs.Nodup → r0 ∈ rs →
      findPivotIndex (mrow m r0) total = some j → j < init.length →
      (∀ r ∈ rs, r ≠ r0 → findPivotIndex (mrow m r) total ≠ some j) →
      ((rs.foldl (fun solution r =>
        match findPivotIndex (mrow m r) total with
        | some pivotIndex => solution.set pivotIndex ((mrow m r).getD total 0 == 1)
        | none => solution) init).getD j false) = ((mrow m r0).getD total 0 == 1) := by
  intro rs
  induction rs with
  | nil =>
    intro init j r0 _ hmem
    exact absurd hmem (by simp)
  | cons a rs ih =>
    intro init j r0 hnd hmem hpiv hlen hother
    have ha_notin : a ∉ rs := (List.nodup_cons.1 hnd).1
    rcases List.mem_cons.1 hmem with heq | hmem2
    · rw [List.foldl_cons]
      have hnone : ∀ r ∈ rs, findPivotIndex (mrow m r) total ≠ some j := by
        intro r hr
        apply hother r (by simp [hr])
        intro he
        rw [he] at hr
        rw [← heq] at ha_notin
        exact ha_notin hr
      rw [setFold_getD_none total m rs _ j hnone, ← heq, hpiv]
      simp only []
      exact getD_set_self _ _ _ _ (by omega)
    · have hane : a ≠ r0 := by
        intro he
        rw [he] at ha_notin
        exact ha_notin hmem2
      rw [List.foldl_cons]
      apply ih _ j r0 (List.nodup_cons.1 hnd).2 hmem2 hpiv ?_
        (fun r hr hne => hother r (by simp [hr]) hne)
      rcases hp : findPivotIndex (mrow m a) total with _ | q
      · simp only [hp]
        omega
      · simp only [hp, List.length_set]
        omega

/-- The solution read off a fully reduced, non-contradictory matrix
satisfies every row of that matrix. -/
theorem buildSolution_sat (total : Nat) (m : List (List Nat)) (hout : ElimOut total m)
    (hnc : hasContradiction total m = false) :
    matSat total m (buildSolution total m) := by
  intro i hi
  rcases hout.rows i hi with hzero | ⟨c, hc1, hc2, hc3, hc4⟩
  · have hval : rowVal total (mrow m i) (buildSolution total m) = 0 := by
      rw [rowVal]
      apply Finset.sum_eq_zero
      intro j hj
      rw [Finset.mem_range] at hj
      have h0 : (mrow m i).getD j 0 = 0 := hzero j hj
      rw [h0]
      simp
    have haug : (mrow m i).getD total 0 = 0 := by
      rw [hasContradiction, List.any_eq_false] at hnc
      have hf := hnc i (List.mem_range.2 hi)
      rw [Bool.and_eq_true] at hf
      have hall : ((mrow m i).take total).all (fun v => v == 0) = true := by
        rw [List.all_eq_true]
        intro v hv
        obtain ⟨k, hk, rfl⟩ := List.mem_iff_getElem.1 hv
        have hk2 : k < total := by
          have := hk
          rw [List.length_take] at this
          omega
        have hkl : k < (mrow m i).length := by
          have := hk
          rw [List.length_take] at this
          omega
        have h0 : (mrow m i).getD k 0 = 0 := hzero k hk2
        rw [← List.getD_eq_getElem _ 0 hk, getD_take _ _ hk2 hkl, h0]
        rfl
      have haug1 : ¬((mrow m i).getD total 0 == 1) = true := fun hcontr => hf ⟨hall, hcontr⟩
      have hb : mget m i total ≤ 1 := hout.bnd i total
      have hb2 : (mrow m i).getD total 0 ≤ 1 := hb
      rcases Nat.lt_or_ge ((mrow m i).getD total 0) 1 with h | h
      · omega
      · exfalso
        apply haug1
        have : (mrow m i).getD total 0 = 1 := by omega
        rw [this]
        rfl
    rw [rowSat, hval, haug]
    rfl
  · have hrlen := hout.rlen i hi
    have hone : (mrow m i).getD c 0 = 1 := hc3
    have hzeros : ∀ k, k < c → (mrow m i).getD k 0 = 0 := fun k hk => hc2 k hk
    have hpi : findPivotIndex (mrow m i) total = some c :=
      findPivotIndex_eq_some hrlen hc1 hone hzeros
    have hsolc : (buildSolution total m).getD c false = ((mrow m i).getD total 0 == 1) := by
      rw [buildSolution]
      apply setFold_getD_unique total m (List.range total) _ c i (List.nodup_range total)
        (List.mem_range.2 hi) hpi (by rw [List.length_replicate]; omega)
      intro r hr hri hcontra
      rcases hout.rows r (List.mem_range.1 hr) with hz | ⟨c2, hc1p, hc2p, hc3p, hc4p⟩
      · rw [@findPivotIndex_eq_none total (mrow m r) (fun k hk => hz k hk)] at hcontra
        exact Option.noConfusion hcontra
      · rw [findPivotIndex_eq_some (hout.rlen r (List.mem_range.1 hr)) hc1p
          (show (mrow m r).getD c2 0 = 1 from hc3p)
          (fun k hk => hc2p k hk)] at hcontra
        have hceq : c2 = c := Option.some.inj hcontra
        subst hceq
        have hzero2 : mget m i c2 = 0 := hc4p i hi (fun he => hri he.symm)
        have hone2 : mget m i c2 = 1 := hc3
        omega
    have hterm : ∀ j ∈ Finset.range total,
        ((mrow m i).getD j 0 : ZMod 2) *
          (if (buildSolution total m).getD j false then 1 else 0) =
        (if j = c then ((mrow m i).getD total 0 : ZMod 2) else 0) := by
      intro j hj
      rw [Finset.mem_range] at hj
      rcases eq_or_ne j c with rfl | hne
      · rw [if_pos rfl, hone, hsolc]
        have hb2 : (mrow m i).getD total 0 ≤ 1 := hout.bnd i total
        rcases (show (mrow m i).getD total 0 = 0 ∨ (mrow m i).getD total 0 = 1 by omega)
          with h | h <;> rw [h] <;> simp
      · rw [if_neg hne]
        have hbj : (mrow m i).getD j 0 ≤ 1 := hout.bnd i j
        rcases (show (mrow m i).getD j 0 = 0 ∨ (mrow m i).getD j 0 = 1 by omega) with h | h
        · rw [h]
          simp
        · have hsolj : (buildSolution total m).getD j false = false := by
            rw [buildSolution]
            rw [setFold_getD_none total m (List.range total) _ j ?_]
            · exact getD_replicate_self _ _ _
            · intro r hr hcontra
              rcases hout.rows r (List.mem_range.1 hr) with hz | ⟨c2, hc1p, hc2p, hc3p, hc4p⟩
              · rw [@findPivotIndex_eq_none total (mrow m r) (fun k hk => hz k hk)] at hcontra
                exact Option.noConfusion hcontra
              · rw [findPivotIndex_eq_some (hout.rlen r (List.mem_range.1 hr)) hc1p
                  (show (mrow m r).getD c2 0 = 1 from hc3p)
                  (fun k hk => hc2p k hk)] at hcontra
                have hceq : c2 = j := Option.some.inj hcontra
                subst hceq
                rcases eq_or_ne r i with rfl | hri
                · have : c2 = c := by
                    rcases Nat.lt_trichotomy c2 c with hlt | heq | hgt
                    · have ha := hc2 c2 hlt
                      have hb := hc3p
                      omega
                    · exact heq
                    · have ha := hc2p c hgt
                      have hb := hc3
                      omega
                  exact hne this
                · have hzero2 : mget m i c2 = 0 := hc4p i hi hri.symm
                  have hone2 : mget m i c2 = 1 := h
                  omega
          rw [h, hsolj]
          simp
    rw [rowSat, rowVal, Finset.sum_congr rfl hterm,
      Finset.sum_ite_eq' (Finset.range total) c
        (fun _ => ((mrow m i).getD total 0 : ZMod 2)),
      if_pos (Finset.mem_range.2 hc1)]

/-! ### Solver-level consequences -/

theorem solveBoard_none_iff_contradiction (board : List Bool) (size : Nat) :
    solveBoard board size = none ↔
      hasContradiction (size * size) (elimLoop (size * size) (buildMatrix board size)) = true := by
  rw [solveBoard]
  by_cases hc : hasContradiction (size * size)
      (elimLoop (size * size) (buildMatrix board size)) = true
  · simp [hc]
  · simp [hc]

theorem solveBoard_some_iff (board : List Bool) (size : Nat) (s : List Bool) :
    solveBoard board size = some s ↔
      hasContradiction (size * size) (elimLoop (size * size) (buildMatrix board size)) = false ∧
      s = buildSolution (size * size) (elimLoop (size * size) (buildMatrix board size)) := by
  rw [solveBoard]
  by_cases hc : hasContradiction (size * size)
      (elimLoop (size * size) (buildMatrix board size)) = true
  · simp [hc]
  · have hc2 : hasContradiction (size * size)
        (elimLoop (size * size) (buildMatrix board size)) = false := by
      cases h : hasContradiction (size * size) (elimLoop (size * size) (buildMatrix board size))
      · rfl
      · exact absurd h hc
    simp [hc2, eq_comm]

theorem buildMatrix_inv (board : List Bool) (size : Nat) :
    ElimInv (size * size) (buildMatrix board size) 0 0 := by
  refine ⟨buildMatrix_length _ _, ?_, buildMatrix_mget_le_one _ _, Nat.le_refl 0,
    Nat.zero_le _, ?_, ?_⟩
  · intro i hi
    rw [buildMatrix_row _ _ hi, buildRow_length]
  · intro i _ _ k hk
    omega
  · intro i hi
    omega

theorem elimLoop_out (board : List Bool) (size : Nat) :
    ElimOut (size * size) (elimLoop (size * size) (buildMatrix board size)) ∧
    (∀ x, matSat (size * size) (elimLoop (size * size) (buildMatrix board size)) x ↔
      matSat (size * size) (buildMatrix board size) x) :=
  elimGo_spec (size * size) (size * size) (buildMatrix board size) 0 0
    (buildMatrix_inv board size) (by omega)

theorem solve_some_matSat (board : List Bool) (size : Nat) (s : List Bool)
    (h : solveBoard board size = some s) :
    matSat (size * size) (buildMatrix board size) s := by
  obtain ⟨hnc, hs⟩ := (solveBoard_some_iff board size s).1 h
  obtain ⟨hout, hiff⟩ := elimLoop_out board size
  rw [hs]
  exact (hiff _).1 (buildSolution_sat _ _ hout hnc)

theorem solve_none_no_matSat (board : List Bool) (size : Nat)
    (h : solveBoard board size = none) :
    ∀ x, ¬matSat (size * size) (buildMatrix board size) x := by
  intro x hx
  rw [solveBoard_none_iff_contradiction] at h
  obtain ⟨hout, hiff⟩ := elimLoop_out board size
  have hxf : matSat (size * size) (elimLoop (size * size) (buildMatrix board size)) x :=
    (hiff x).2 hx
  rw [hasContradiction, List.any_eq_true] at h
  obtain ⟨r, hr, hpred⟩ := h
  rw [List.mem_range] at hr
  rw [Bool.and_eq_true] at hpred
  obtain ⟨hall, haug⟩ := hpred
  rw [List.all_eq_true] at hall
  have hsat := hxf r hr
  rw [rowSat] at hsat
  have hz : ∀ j, j < size * size →
      (mrow (elimLoop (size * size) (buildMatrix board size)) r).getD j 0 = 0 := by
    intro j hj
    have hjl : j < (mrow (elimLoop (size * size) (buildMatrix board size)) r).length := by
      rw [hout.rlen r hr]
      omega
    have h1 : j < ((mrow (elimLoop (size * size) (buildMatrix board size)) r).take
        (size * size)).length := by
      rw [List.length_take]
      omega
    have := hall _ (List.getElem_mem h1)
    rw [List.getElem_take] at this
    rw [List.getD_eq_getElem _ _ hjl]
    simpa using this
  have hval : rowVal (size * size) (mrow (elimLoop (size * size) (buildMatrix board size)) r)
      x = 0 := by
    rw [rowVal]
    apply Finset.sum_eq_zero
    intro j hj
    rw [Finset.mem_range] at hj
    rw [hz j hj]
    simp
  rw [hval] at hsat
  have haug2 : (mrow (elimLoop (size * size) (buildMatrix board size)) r).getD
      (size * size) 0 = 1 := by
    simpa using haug
  rw [haug2] at hsat
  exact absurd hsat (by decide)

/-! ### The main solver claims -/

/-- C1: solver correctness — whenever `solveBoard` returns a solution
`s`, pressing each switch whose index is true in `s` once, in any order
(given as any duplicate-free list `ps` containing exactly the true
positions of `s`), turns the board into the all-`false` board. -/
theorem solver_correct (board s : List Bool) (size : Nat) (hsz : 0 < size)
    (hb : board.length = size * size)
    (hsolve : solveBoard board size = some s)
    (ps : List (Nat × Nat)) (hnd : ps.Nodup)
    (hmem1 : ∀ p ∈ ps, p.1 < size ∧ p.2 < size ∧ s.getD (p.1 * size + p.2) false = true)
    (hmem2 : ∀ r, r < size → ∀ c, c < size → s.getD (r * size + c) false = true → (r, c) ∈ ps) :
    applyPresses size ps board = List.replicate (size * size) false := by
  have hps : ∀ p ∈ ps, p.1 < size ∧ p.2 < size :=
    fun p hp => ⟨(hmem1 p hp).1, (hmem1 p hp).2.1⟩
  have hx : ∀ p : Nat × Nat, p.1 < size → p.2 < size →
      (s.getD (p.1 * size + p.2) false = true ↔ p ∈ ps) := by
    intro p h1 h2
    constructor
    · intro h
      have := hmem2 p.1 h1 p.2 h2 h
      rwa [Prod.mk.eta] at this
    · intro h
      exact (hmem1 p h).2.2
  rw [applyPresses_clears_iff board size hb ps hnd hps s hx]
  exact solve_some_matSat board size s hsolve

theorem solver_correct_witness :
    applyPresses 2 [(0, 0), (0, 1), (1, 0), (1, 1)] [true, true, true, true] =
      List.replicate (2 * 2) false :=
  solver_correct [true, true, true, true] [true, true, true, true] 2 (by decide) (by decide)
    (by decide) [(0, 0), (0, 1), (1, 0), (1, 1)] (by decide) (by decide)
    (by intro r hr c hc hs; interval_cases r <;> interval_cases c <;> simp)

/-- C2: the solver returns the unsolvable signal exactly when the
eliminated matrix contains a `0 = 1` row, and exactly when no
duplicate-free set of in-bounds switch presses clears the board. -/
theorem solver_unsolvable_iff (board : List Bool) (size : Nat) (hsz : 0 < size)
    (hb : board.length = size * size) :
    (solveBoard board size = none ↔
      hasContradiction (size * size) (elimLoop (size * size) (buildMatrix board size)) = true) ∧
    (solveBoard board size = none ↔
      ¬∃ ps : List (Nat × Nat), ps.Nodup ∧ (∀ p ∈ ps, p.1 < size ∧ p.2 < size) ∧
        applyPresses size ps board = List.replicate (size * size) false) := by
  refine ⟨solveBoard_none_iff_contradiction board size, ?_, ?_⟩
  · intro h
    rintro ⟨ps, hnd, hps, hclear⟩
    have hx : ∀ p : Nat × Nat, p.1 < size → p.2 < size →
        (((List.range (size * size)).map
          (fun j => decide ((j / size, j % size) ∈ ps))).getD (p.1 * size + p.2) false = true ↔
          p ∈ ps) := by
      intro p h1 h2
      have he : p.1 * size + p.2 < size * size := encode_lt h1 h2
      rw [getD_map_range _ _ he, encode_div h2, encode_mod h2, Prod.mk.eta]
      simp
    have hms := (applyPresses_clears_iff board size hb ps hnd hps _ hx).1 hclear
    exact solve_none_no_matSat board size h _ hms
  · intro h
    rcases hsolve : solveBoard board size with _ | s
    · rfl
    · exfalso
      apply h
      refine ⟨(List.range (size * size)).filterMap
        (fun j => if s.getD j false = true then some (j / size, j % size) else none),
        ?_, ?_, ?_⟩
      · apply List.Nodup.filterMap ?_ (List.nodup_range _)
        intro a a2 b hb1 hb2
        by_cases h1 : s.getD a false = true
        · by_cases h2 : s.getD a2 false = true
          · rw [if_pos h1] at hb1
            rw [if_pos h2] at hb2
            have e1 := Option.some.inj hb1
            have e2 := Option.some.inj hb2
            have hd : a / size = a2 / size := by
              have := congrArg Prod.fst (e1.trans e2.symm)
              simpa using this
            have hm : a % size = a2 % size := by
              have := congrArg Prod.snd (e1.trans e2.symm)
              simpa using this
            calc a = size * (a / size) + a % size := (Nat.div_add_mod a size).symm
              _ = size * (a2 / size) + a2 % size := by rw [hd, hm]
              _ = a2 := Nat.div_add_mod a2 size
          · rw [if_neg h2] at hb2
            exact absurd hb2 (by simp)
        · rw [if_neg h1] at hb1
          exact absurd hb1 (by simp)
      · intro p hp
        obtain ⟨j, hj, hje⟩ := List.mem_filterMap.1 hp
        rw [List.mem_range] at hj
        by_cases h1 : s.getD j false = true
        · rw [if_pos h1] at hje
          have := Option.some.inj hje
          rw [← this]
          constructor
          · rw [Nat.div_lt_iff_lt_mul hsz]
            omega
          · exact Nat.mod_lt _ hsz
        · rw [if_neg h1] at hje
          exact absurd hje (by simp)
      · have hnd : ((List.range (size * size)).filterMap
            (fun j => if s.getD j false = true then some (j / size, j % size) else none)).Nodup := by
          apply List.Nodup.filterMap ?_ (List.nodup_range _)
          intro a a2 b hb1 hb2
          by_cases h1 : s.getD a false = true
          · by_cases h2 : s.getD a2 false = true
            · rw [if_pos h1] at hb1
              rw [if_pos h2] at hb2
              have e1 := Option.some.inj hb1
              have e2 := Option.some.inj hb2
              have hd : a / size = a2 / size := by
                have := congrArg Prod.fst (e1.trans e2.symm)
                simpa using this
              have hm : a % size = a2 % size := by
                have := congrArg Prod.snd (e1.trans e2.symm)
                simpa using this
              calc a = size * (a / size) + a % size := (Nat.div_add_mod a size).symm
                _ = size * (a2 / size) + a2 % size := by rw [hd, hm]
                _ = a2 := Nat.div_add_mod a2 size
            · rw [if_neg h2] at hb2
              exact absurd hb2 (by simp)
          · rw [if_neg h1] at hb1
            exact absurd hb1 (by simp)
        have hps : ∀ p ∈ (List.range (size * size)).filterMap
            (fun j => if s.getD j false = true then some (j / size, j % size) else none),
            p.1 < size ∧ p.2 < size := by
          intro p hp
          obtain ⟨j, hj, hje⟩ := List.mem_filterMap.1 hp
          rw [List.mem_range] at hj
          by_cases h1 : s.getD j false = true
          · rw [if_pos h1] at hje
            have := Option.some.inj hje
            rw [← this]
            constructor
            · rw [Nat.div_lt_iff_lt_mul hsz]
              omega
            · exact Nat.mod_lt _ hsz
          · rw [if_neg h1] at hje
            exact absurd hje (by simp)
        have hx : ∀ p : Nat × Nat, p.1 < size → p.2 < size →
            (s.getD (p.1 * size + p.2) false = true ↔
              p ∈ (List.range (size * size)).filterMap
                (fun j => if s.getD j false = true then some (j / size, j % size) else none)) := by
          intro p h1 h2
          constructor
          · intro hst
            apply List.mem_filterMap.2
            refine ⟨p.1 * size + p.2, List.mem_range.2 (encode_lt h1 h2), ?_⟩
            rw [if_pos hst, encode_div h2, encode_mod h2, Prod.mk.eta]
          · intro hp
            obtain ⟨j, hj, hje⟩ := List.mem_filterMap.1 hp
            by_cases hsj : s.getD j false = true
            · rw [if_pos hsj] at hje
              have := Option.some.inj hje
              have hjeq : p.1 * size + p.2 = j := by
                rw [← this]
                simp only
                calc j / size * size + j % size = size * (j / size) + j % size := by ring
                  _ = j := Nat.div_add_mod j size
              rwa [hjeq]
            · rw [if_neg hsj] at hje
              exact absurd hje (by simp)
        exact (applyPresses_clears_iff board size hb _ hnd hps s hx).2
          (solve_some_matSat board size s hsolve)

theorem solver_unsolvable_iff_witness :
    (solveBoard [true] 1 = none ↔
      hasContradiction (1 * 1) (elimLoop (1 * 1) (buildMatrix [true] 1)) = true) ∧
    (solveBoard [true] 1 = none ↔
      ¬∃ ps : List (Nat × Nat), ps.Nodup ∧ (∀ p ∈ ps, p.1 < 1 ∧ p.2 < 1) ∧
        applyPresses 1 ps [true] = List.replicate (1 * 1) false) :=
  solver_unsolvable_iff [true] 1 (by decide) (by decide)

theorem ite_decide_odd (c : Nat) :
    (if decide (Odd c) then (1 : ZMod 2) else 0) = (c : ZMod 2) := by
  rw [natCast_zmod_two]
  by_cases h : Odd c <;> simp [h]

theorem makeScrambledBoard_eq (size : Nat) (draws : List (Nat × Nat)) :
    makeScrambledBoard size draws =
      applyPresses size draws (List.replicate (size * size) false) := rfl

/-- C4: every board produced by the scrambler (any number of random
draws from `[0, size) × [0, size)`) is solvable — `solveBoard` never
returns the unsolvable signal on it. -/
theorem scramble_solvable (size : Nat) (hsz : 0 < size) (draws : List (Nat × Nat))
    (hd : ∀ p ∈ draws, p.1 < size ∧ p.2 < size) :
    solveBoard (makeScrambledBoard size draws) size ≠ none := by
  intro hnone
  apply solve_none_no_matSat _ _ hnone
    ((List.range (size * size)).map
      (fun j => decide (Odd (draws.count ((j / size : Nat), (j % size : Nat))))))
  intro i hi
  rw [rowSat]
  have haug2 : ((mrow (buildMatrix (makeScrambledBoard size draws) size) i).getD
      (size * size) 0 : ZMod 2) =
      (if (makeScrambledBoard size draws).getD i false then 1 else 0) :=
    buildMatrix_aug (makeScrambledBoard size draws) size hi
  rw [haug2]
  have hscr : (makeScrambledBoard size draws).getD i false =
      decide (Odd (draws.countP (fun p => decide (i ∈ toggleIdxs size p.1 p.2)))) := by
    rw [makeScrambledBoard_eq,
      applyPresses_getD size draws _ (by rw [List.length_replicate]) i,
      getD_replicate_self, Bool.false_xor]
  rw [hscr, ite_decide_odd]
  have hlt2 : ∀ a ∈ draws.map (fun p => p.1 * size + p.2), a < size * size := by
    intro a ha
    obtain ⟨p, hp, hpe⟩ := List.mem_map.1 ha
    obtain ⟨h1, h2⟩ := hd p hp
    rw [← hpe]
    exact encode_lt h1 h2
  have hcount : ∀ j, j < size * size →
      List.count ((j / size : Nat), (j % size : Nat)) draws =
        List.count j (draws.map (fun p => p.1 * size + p.2)) := by
    intro j hj
    rw [List.count_eq_countP, List.count_eq_countP, List.countP_map]
    apply List.countP_congr
    intro p hp
    obtain ⟨h1, h2⟩ := hd p hp
    simp only [Function.comp_apply, beq_iff_eq]
    constructor
    · intro he
      rw [he]
      simp only
      calc j / size * size + j % size = size * (j / size) + j % size := by ring
        _ = j := Nat.div_add_mod j size
    · intro he
      rw [← he, encode_div h2, encode_mod h2, Prod.mk.eta]
  have hpoint : ∀ j ∈ Finset.range (size * size),
      ((mrow (buildMatrix (makeScrambledBoard size draws) size) i).getD j 0 : ZMod 2) *
        (if ((List.range (size * size)).map
          (fun j2 => decide (Odd (draws.count ((j2 / size : Nat), (j2 % size : Nat)))))).getD
            j false then 1 else 0) =
      ((List.count j (draws.map (fun p => p.1 * size + p.2)) : Nat) : ZMod 2) *
        ((mget (buildMatrix (makeScrambledBoard size draws) size) i j : Nat) : ZMod 2) := by
    intro j hj
    rw [Finset.mem_range] at hj
    rw [getD_map_range _ _ hj, ite_decide_odd, hcount j hj, mul_comm]
    rfl
  rw [rowVal, Finset.sum_congr rfl hpoint, ← sum_map_eq_sum_count _ hlt2, List.map_map]
  rw [List.map_congr_left (g := fun p : Nat × Nat =>
      if i ∈ toggleIdxs size p.1 p.2 then (1 : ZMod 2) else 0) ?_]
  · exact sum_map_ite_eq_countP _ _
  · intro p hp
    obtain ⟨h1, h2⟩ := hd p hp
    simp only [Function.comp_apply]
    have hco := buildMatrix_coeff_iff (makeScrambledBoard size draws) size hi (encode_lt h1 h2)
    rw [hco, encode_div h2, encode_mod h2]
    split <;> simp

theorem scramble_solvable_witness :
    solveBoard (makeScrambledBoard 4
      [(0, 0), (1, 1), (2, 2), (3, 3), (0, 1), (1, 2), (2, 3), (3, 0)]) 4 ≠ none :=
  scramble_solvable 4 (by decide)
    [(0, 0), (1, 1), (2, 2), (3, 3), (0, 1), (1, 2), (2, 3), (3, 0)] (by decide)

end Game
